import Mathlib

/-!
# cask-tools, package `version`: a shallow embedding

The definitions follow `src/version/version.go`.  Go values are embedded as follows.

* `string` is `String`; a slice is a `List` (a nil slice and an empty slice are both `[]`).
* `int` is `Int`.  The one place where arbitrary caller-supplied integers are added up,
  `CleanByWeights`, wraps its running sum to 64 bits (`wrapInt64`) and divides with the
  truncating quotient `Int.tdiv`, as Go does.  The counters of `Weighten` start at zero and
  are incremented once per element of a slice, so they stay far below `2 ^ 63` and are
  not wrapped.
* a `map[string]T` is a total function `String → T` whose default is the zero value of `T`,
  which is what reading a missing key gives in Go.
* a run-time panic (index out of range, integer division by zero) is `none`.
* a method with a pointer receiver that mutates `self` returns the new value of `self`.
-/

set_option linter.dupNamespace false

namespace CaskVersion

/-! ## Data model -/

/-- The struct `Version` (version.go, lines 28-32). -/
structure Version where
  Value : String
  Weight : Int
  Prerelease : Bool
deriving DecidableEq, Repr

/-- The struct `Group` (version.go, lines 22-26). -/
structure Group where
  Versions : List Version
  PreferredVersion : Version
  Urls : List String
deriving DecidableEq, Repr

/-- The struct `Groups` (version.go, lines 18-20). -/
structure Groups where
  Groups : List Group
deriving DecidableEq, Repr

/-- The zero value of `Version`: what `var preferred Version` and `new(Group)` start from. -/
def zeroVersion : Version := { Value := "", Weight := 0, Prerelease := false }

/-- `NewGroups()`: a `Groups` without any group. -/
def NewGroups : Groups := { Groups := [] }

/-- `NewGroup()` called without arguments: the zero `Group`. -/
def NewGroup : Group := { Versions := [], PreferredVersion := zeroVersion, Urls := [] }

/-- `Groups.AddGroup`: appends a group. -/
def Groups.AddGroup (self : CaskVersion.Groups) (group : Group) : CaskVersion.Groups :=
  { Groups := self.Groups ++ [group] }

/-- `Group.AddVersion(version, weight, prerelease)`.  The variadic tail of the Go method is
given by its two typed positions; a caller that leaves one out passes the default `0` or
`false` that the method itself would fill in. -/
def Group.AddVersion (self : Group) (version : String) (weight : Int) (prerelease : Bool) :
    Group :=
  let v : Version := { Value := version, Weight := weight, Prerelease := prerelease }
  let self : Group := { self with Versions := self.Versions ++ [v] }
  if self.PreferredVersion.Value = "" then { self with PreferredVersion := v } else self

/-- `Group.AddUrl`: appends a url. -/
def Group.AddUrl (self : Group) (url : String) : Group :=
  { self with Urls := self.Urls ++ [url] }

/-! ## Maps -/

/-- Assignment `m[k] = v` on a map seen as a total function. -/
def mapSet {β : Type} (m : String → β) (k : String) (v : β) : String → β :=
  fun k' => if k' = k then v else m k'

/-! ## Weighten -/

/-- One pass of the inner counting loop of `Weighten` (lines 99-106). -/
def countVersion (weights : String → Int) (version : Version) : String → Int :=
  let v := version.Value
  if weights v = 0 then mapSet weights v 1 else mapSet weights v (weights v + 1)

/-- The first loop of `Weighten` (lines 96-107): the table `weights`. -/
def countWeights (groups : List Group) : String → Int :=
  groups.foldl (fun weights group => group.Versions.foldl countVersion weights) (fun _ => 0)

/-- The body of the inner loop that rebuilds one group (lines 117-127), on the pair of the
local `preferred` and the group `g` under construction. -/
def weightenStep (weights : String → Int) (st : Version × Group) (v : Version) :
    Version × Group :=
  let preferred := st.1
  let g := st.2
  let preferred : Version :=
    if preferred.Value = "" ∨ preferred.Weight < weights v.Value then
      { Value := v.Value, Weight := weights v.Value, Prerelease := v.Prerelease }
    else preferred
  let g := g.AddVersion v.Value (weights v.Value) false
  (preferred, { g with PreferredVersion := preferred })

/-- The body of the outer rebuilding loop (lines 111-130) for one group. -/
def weightenGroup (weights : String → Int) (group : Group) : Group :=
  (group.Versions.foldl (weightenStep weights)
    (zeroVersion, { NewGroup with Urls := group.Urls })).2

/-- `Groups.Weighten` (lines 95-133). -/
def Groups.Weighten (self : CaskVersion.Groups) : CaskVersion.Groups :=
  let weights := countWeights self.Groups
  self.Groups.foldl (fun groups group => groups.AddGroup (weightenGroup weights group)) NewGroups

/-! ## GroupVersions -/

/-- The locals `keys`, `encountered`, `urls` and `versions` of `GroupVersions`. -/
structure GVState where
  keys : List String
  encountered : String → Bool
  urls : String → List String
  versions : String → Version

/-- The locals of `GroupVersions` before its first loop (lines 137-140). -/
def GVState.init : GVState :=
  { keys := [], encountered := fun _ => false, urls := fun _ => [], versions := fun _ => zeroVersion }

/-- The body of the first loop of `GroupVersions` (lines 144-164).  `Versions[0]` and
`Urls[0]` panic on an empty slice. -/
def groupVersionsStep (st : GVState) (group : Group) : Option GVState :=
  match group.Versions with
  | [] => none
  | first :: _ =>
    let v := if group.PreferredVersion.Value ≠ "" then group.PreferredVersion.Value else first.Value
    match group.Urls with
    | [] => none
    | u :: _ =>
      if v ≠ "" then
        if st.encountered v then
          some { st with urls := mapSet st.urls v (st.urls v ++ [u]) }
        else
          some { keys := st.keys ++ [v]
                 encountered := mapSet st.encountered v true
                 urls := mapSet st.urls v [u]
                 versions := mapSet st.versions v group.PreferredVersion }
      else some st

/-- The body of the second loop of `GroupVersions` (lines 166-172). -/
def groupVersionsEmit (st : GVState) (groups : Groups) (key : String) : Groups :=
  let g := NewGroup.AddVersion (st.versions key).Value (st.versions key).Weight
    (st.versions key).Prerelease
  groups.AddGroup { g with Urls := st.urls key }

/-- `Groups.GroupVersions` (lines 136-175). -/
def Groups.GroupVersions (self : CaskVersion.Groups) : Option CaskVersion.Groups :=
  (self.Groups.foldlM groupVersionsStep GVState.init).map
    (fun st => st.keys.foldl (groupVersionsEmit st) NewGroups)

/-! ## CleanByWeights -/

/-- The value a 64-bit signed `int` holds after an arithmetic result `x`. -/
def wrapInt64 (x : Int) : Int := (x + 2 ^ 63) % 2 ^ 64 - 2 ^ 63

/-- The summing loop of `CleanByWeights` (lines 185-188). -/
def sumWeights (groups : List Group) : Int :=
  groups.foldl (fun w group => wrapInt64 (w + group.PreferredVersion.Weight)) 0

/-- `Groups.CleanByWeights` (lines 182-199).  Dividing by `len(self.Groups) = 0` panics. -/
def Groups.CleanByWeights (self : CaskVersion.Groups) : Option CaskVersion.Groups :=
  let w := sumWeights self.Groups
  if self.Groups.length = 0 then none
  else
    let averageWeight := Int.tdiv w self.Groups.length
    some (self.Groups.foldl
      (fun groups group =>
        if group.PreferredVersion.Weight ≥ averageWeight ∨ group.Urls.length > 0 then
          groups.AddGroup group
        else groups)
      NewGroups)

/-! ## Regular expressions

The package works through Go's `regexp`.  The part of that library the package relies on is
given here: the expressions it compiles, leftmost-first matching (the match a backtracking
search finds first), the loops of `FindAllStringSubmatch` and `ReplaceAllString`, and the
expansion of `$` in a replacement.  Positions in a text are given by the suffix that starts
there; texts are lists of characters (a Go string that is valid UTF-8). -/

/-- The outcome of a call that may panic.  `beyond` marks an input on which this development
does not say what Go's `regexp` does (see `compilePattern` and `extract`). -/
inductive Res (α : Type) where
  | ok (a : α)
  | panic
  | beyond
deriving DecidableEq, Repr

/-- Sequencing of calls that may panic. -/
def Res.bind {α β : Type} (r : Res α) (f : α → Res β) : Res β :=
  match r with
  | .ok a => f a
  | .panic => .panic
  | .beyond => .beyond

/-- The function `f` applied to a result. -/
def Res.map {α β : Type} (f : α → β) (r : Res α) : Res β :=
  r.bind (fun a => .ok (f a))

/-- An index expression `l[i]` on a slice: a panic when `i` is out of range. -/
def index {α : Type} (l : List α) (i : Nat) : Res α :=
  match l[i]? with
  | some a => .ok a
  | none => .panic

/-- Regular expressions. -/
inductive Re where
  /-- An expression that matches one character satisfying `p`. -/
  | set (p : Char → Bool)
  /-- The empty expression. -/
  | eps
  /-- The anchor `^`: the beginning of the text. -/
  | bot
  /-- The anchor `$`: the end of the text. -/
  | eot
  /-- Concatenation. -/
  | cat (a b : Re)
  /-- Alternation `a|b`, preferring `a`. -/
  | alt (a b : Re)
  /-- Greedy repetition `a*`. -/
  | star (a : Re)
  /-- Greedy repetition `a+`. -/
  | plus (a : Re)
  /-- The capturing group number `n`. -/
  | cap (n : Nat) (a : Re)

/-- A literal character. -/
def Re.lit (c : Char) : Re := .set (fun x => x == c)

/-- The dot: any character but a newline. -/
def Re.dot : Re := .set (fun x => x != '\n')

/-- The class `\d`. -/
def Re.digit : Re := .set (fun x => x.isDigit)

/-- The class `\w`. -/
def Re.word : Re := .set (fun x => x.isAlphanum || x == '_')

/-- A class `[...]` that lists its characters. -/
def Re.oneOf (cs : List Char) : Re := .set (fun x => cs.contains x)

/-- A negated class `[^...]`; it matches a newline too. -/
def Re.noneOf (cs : List Char) : Re := .set (fun x => !cs.contains x)

/-- A literal text. -/
def Re.str (s : String) : Re := s.data.foldr (fun c r => .cat (.lit c) r) .eps

/-- The highest group number of an expression. -/
def Re.numCap : Re → Nat
  | .set _ => 0
  | .eps => 0
  | .bot => 0
  | .eot => 0
  | .cat a b => max a.numCap b.numCap
  | .alt a b => max a.numCap b.numCap
  | .star a => a.numCap
  | .plus a => a.numCap
  | .cap n a => max n a.numCap

/-- A point reached by the matcher: the text still ahead and the groups bound so far, the
latest binding first. -/
structure MState where
  rest : List Char
  caps : List (Nat × List Char)

/-- The ways to repeat `f` from `s`, longest first; an iteration has to consume a character.
`n` bounds the number of iterations. -/
def starLoop (f : MState → List MState) : Nat → MState → List MState
  | 0, s => [s]
  | n + 1, s =>
    ((f s).filter (fun t => t.rest.length < s.rest.length)).flatMap (starLoop f n) ++ [s]

/-- All the ways `r` matches at `s`, in the order of preference of a backtracking search.
`total` is the length of the whole text. -/
def Re.run (total : Nat) : Re → MState → List MState
  | .set p, s =>
    match s.rest with
    | [] => []
    | c :: cs => if p c then [{ s with rest := cs }] else []
  | .eps, s => [s]
  | .bot, s => if s.rest.length = total then [s] else []
  | .eot, s => if s.rest.length = 0 then [s] else []
  | .cat a b, s => (a.run total s).flatMap (fun t => b.run total t)
  | .alt a b, s => a.run total s ++ b.run total s
  | .star a, s => starLoop (fun t => a.run total t) s.rest.length s
  | .plus a, s =>
    (a.run total s).flatMap (fun t => starLoop (fun u => a.run total u) t.rest.length t)
  | .cap n a, s =>
    (a.run total s).map (fun t =>
      { t with caps := (n, s.rest.take (s.rest.length - t.rest.length)) :: t.caps })

/-- A match: the text from its first character on, the text after it, and its groups. -/
structure Hit where
  start : List Char
  stop : List Char
  caps : List (Nat × List Char)

/-- The matched text. -/
def Hit.text (h : Hit) : List Char := h.start.take (h.start.length - h.stop.length)

/-- The text of group `i` of a match; group `0` is the whole match, a group that took no part
is empty. -/
def Hit.group (h : Hit) (i : Nat) : List Char :=
  if i = 0 then h.text else ((h.caps.find? (fun c => c.1 == i)).map (fun c => c.2)).getD []

/-- The slice of strings `FindStringSubmatch` builds from a match of `r`. -/
def Hit.submatches (r : Re) (h : Hit) : List String :=
  (List.range (r.numCap + 1)).map (fun i => String.mk (h.group i))

/-- The leftmost match of `r` that starts at `pos` or later. -/
def Re.find (r : Re) (total : Nat) : List Char → Option Hit
  | [] =>
    match r.run total { rest := [], caps := [] } with
    | [] => none
    | t :: _ => some { start := [], stop := t.rest, caps := t.caps }
  | c :: cs =>
    match r.run total { rest := c :: cs, caps := [] } with
    | [] => r.find total cs
    | t :: _ => some { start := c :: cs, stop := t.rest, caps := t.caps }

/-- The position one character after `pos`; `none` is the position after the end. -/
def advance (pos : List Char) : Option (List Char) :=
  match pos with
  | [] => none
  | _ :: cs => some cs

/-- The loop of `allMatches` in `regexp`: the successive matches from `pos` on.  `prevEnd` is
the length of the text after the previous match.  An empty match right after the previous match
is not delivered. -/
def Re.allMatches (r : Re) (total : Nat) : Nat → Option (List Char) → Option Nat → List Hit
  | 0, _, _ => []
  | _ + 1, none, _ => []
  | fuel + 1, some pos, prevEnd =>
    match r.find total pos with
    | none => []
    | some h =>
      if h.stop.length = pos.length then
        (if prevEnd = some h.start.length then [] else [h]) ++
          r.allMatches total fuel (advance pos) (some h.stop.length)
      else
        h :: r.allMatches total fuel (some h.stop) (some h.stop.length)

/-- `re.FindAllStringSubmatch(s, -1)`. -/
def Re.FindAllStringSubmatch (r : Re) (s : String) : List (List String) :=
  (r.allMatches s.length (s.length + 2) (some s.data) none).map (Hit.submatches r)

/-- `re.FindAllString(s, -1)`. -/
def Re.FindAllString (r : Re) (s : String) : List String :=
  (r.allMatches s.length (s.length + 2) (some s.data) none).map (fun h => String.mk h.text)

/-- Whether a character may stand in a name after `$`, for an ASCII character. -/
def isNameChar (c : Char) : Bool := c.isAlphanum || c == '_'

/-- The number a name of decimal digits denotes, `-1` for any other name (`extract` in
`regexp`). -/
def nameNumber (name : List Char) : Int :=
  let num := name.foldl
    (fun (num : Int) c =>
      if num < 0 then -1
      else if !c.isDigit || num ≥ 100000000 then -1
      else num * 10 + ((c.toNat : Int) - 48))
    0
  match name with
  | '0' :: _ :: _ => -1
  | _ => num

/-- The function `extract` of `regexp`: the leading name of `str`, its number and the text
after it, or `none` when there is no name.  Go reads letters and digits of every script; a
name that runs into a character outside ASCII is `beyond` this development. -/
def extract (str : List Char) : Res (Option (List Char × Int × List Char)) :=
  match str with
  | [] => .ok none
  | c :: cs =>
    let brace := c == '{'
    let str := if brace then cs else c :: cs
    let name := str.takeWhile isNameChar
    let rest := str.dropWhile isNameChar
    match rest with
    | d :: rest' =>
      if d.toNat ≥ 128 then .beyond
      else if name = [] then .ok none
      else if brace then
        if d = '}' then .ok (some (name, nameNumber name, rest')) else .ok none
      else .ok (some (name, nameNumber name, rest))
    | [] =>
      if name = [] then .ok none
      else if brace then .ok none
      else .ok (some (name, nameNumber name, []))

/-- The method `expand` of `regexp` for an expression without named groups: the replacement
`template` with `$$`, `$n`, `${n}` and `$name` expanded for the match `h` of `r`. -/
def expand (r : Re) (h : Hit) : Nat → List Char → Res (List Char)
  | 0, template => .ok template
  | _ + 1, [] => .ok []
  | fuel + 1, c :: template =>
    if c ≠ '$' then (expand r h fuel template).map (fun out => c :: out)
    else
      match template with
      | '$' :: template' => (expand r h fuel template').map (fun out => '$' :: out)
      | _ =>
        (extract template).bind (fun e =>
          match e with
          | none => (expand r h fuel template).map (fun out => '$' :: out)
          | some (_, num, rest) =>
            let sub := if 0 ≤ num ∧ num.toNat ≤ r.numCap then h.group num.toNat else []
            (expand r h fuel rest).map (fun out => sub ++ out))

/-- The loop of `replaceAll` in `regexp`.  `pos` is the place the search resumes from, `last`
the text after the most recent match; a replacement is not inserted for an empty match right
after another match. -/
def Re.replaceAll (r : Re) (total : Nat) (repl : List Char) :
    Nat → Option (List Char) → List Char → Res (List Char)
  | 0, _, last => .ok last
  | _ + 1, none, last => .ok last
  | fuel + 1, some pos, last =>
    match r.find total pos with
    | none => .ok last
    | some h =>
      let gap := last.take (last.length - h.start.length)
      let ins : Res (List Char) :=
        if h.stop.length < last.length ∨ h.start.length = total then
          expand r h (repl.length + 1) repl
        else .ok []
      let next := if h.stop.length = pos.length then advance pos else some h.stop
      ins.bind (fun ins =>
        (r.replaceAll total repl fuel next h.stop).map (fun out => gap ++ ins ++ out))

/-- `re.ReplaceAllString(src, repl)`. -/
def Re.ReplaceAllString (r : Re) (src repl : String) : Res String :=
  (r.replaceAll src.length repl.data (src.length + 2) (some src.data) src.data).map String.mk

/-- `regexp.MustCompile(pattern)` for a pattern that is a text of literal characters and
dots: every character other than `.` stands for itself, a `{` that no digit follows included.
A pattern with one of the operators `\ ( ) | ^ $ [ * + ?`, or with a `{` before a digit, is
`none`: this development does not give its reading. -/
def compilePattern : List Char → Option Re
  | [] => some .eps
  | c :: cs =>
    if c = '.' then (compilePattern cs).map (fun r => .cat .dot r)
    else if c = '{' then
      match cs with
      | d :: _ => if d.isDigit then none else (compilePattern cs).map (fun r => .cat (.lit c) r)
      | [] => some (.cat (.lit c) .eps)
    else if c ∈ ['\\', '(', ')', '|', '^', '$', '[', '*', '+', '?'] then none
    else (compilePattern cs).map (fun r => .cat (.lit c) r)

/-- `regexp.MustCompile(pattern)` on a text found at run time. -/
def MustCompile (pattern : String) : Res Re :=
  match compilePattern pattern.data with
  | some r => .ok r
  | none => .beyond

/-- `strings.Split(s, ".")` on a list of characters. -/
def splitDots : List Char → List (List Char)
  | [] => [[]]
  | c :: cs =>
    if c = '.' then [] :: splitDots cs
    else
      match splitDots cs with
      | [] => [[c]]
      | w :: ws => (c :: w) :: ws

/-- `strings.Split(s, ".")`. -/
def Split (s : String) : List String := (splitDots s.data).map String.mk

/-! ## Extraction -/

/-- The table `ignoredVersions` (lines 11-16): the keys whose entry is `true`. -/
def ignoredVersions (s : String) : Bool :=
  s = "86_64" || s = "386" || s = "64" || s = "32"

/-- The expression `(?:[\d]+)(?:[._-](?:[\d])+|(?:\w))+` (line 68). -/
def regexVersion : Re :=
  .cat (.plus .digit) (.plus (.alt (.cat (.oneOf ['.', '_', '-']) (.plus .digit)) .word))

/-- `ExtractAll` (lines 62-84).  The test `MatchString` at line 70 is subsumed: without a
match the list of all matches is empty. -/
def ExtractAll (content : String) : List String :=
  (regexVersion.FindAllStringSubmatch content).foldl
    (fun versions m =>
      match m with
      | [] => versions
      | m0 :: _ => if ignoredVersions m0 = true then versions else versions ++ [m0])
    []

/-- `Group.ExtractAll` (lines 229-234). -/
def Group.ExtractAll (self : Group) (content : String) : Group :=
  (CaskVersion.ExtractAll content).foldl (fun g version => g.AddVersion version 0 false) self

/-! ## Derivations of a version -/

/-- `NewVersion(version)` without a weight. -/
def NewVersion (version : String) : Version := { Value := version, Weight := 0, Prerelease := false }

/-- The expression `^\d`. -/
def regexMajor : Re := .cat .bot .digit

/-- The expression `^(?:\d)\.(\d)`. -/
def regexMinor : Re := .cat .bot (.cat .digit (.cat (.lit '.') (.cap 1 .digit)))

/-- The expression `^(?:\d)\.(?:\d)\.(\d)`. -/
def regexPatch : Re :=
  .cat .bot (.cat .digit (.cat (.lit '.') (.cat .digit (.cat (.lit '.') (.cap 1 .digit)))))

/-- The expression `^((?:\d)\.(?:\d))`. -/
def regexMajorMinor : Re := .cat .bot (.cap 1 (.cat .digit (.cat (.lit '.') .digit)))

/-- The expression `^((?:\d)\.(?:\d)\.(?:\d))`. -/
def regexMajorMinorPatch : Re :=
  .cat .bot (.cap 1 (.cat .digit (.cat (.lit '.') (.cat .digit (.cat (.lit '.') .digit)))))

/-- The expressions `(^.*)\,` and `(^.*)\:`. -/
def regexBefore (sep : Char) : Re := .cat (.cap 1 (.cat .bot (.star .dot))) (.lit sep)

/-- The expressions `\,(.*$)` and `\:(.*$)`. -/
def regexAfter (sep : Char) : Re := .cat (.lit sep) (.cap 1 (.cat (.star .dot) .eot))

/-- The expression `\.`. -/
def regexDot : Re := .lit '.'

/-- `Version.Major` (lines 252-255). -/
def Version.Major (self : Version) : Res String :=
  index (regexMajor.FindAllString self.Value) 0

/-- `Version.Minor` (lines 258-261). -/
def Version.Minor (self : Version) : Res String :=
  (index (regexMinor.FindAllStringSubmatch self.Value) 0).bind (fun m => index m 1)

/-- `Version.Patch` (lines 264-267). -/
def Version.Patch (self : Version) : Res String :=
  (index (regexPatch.FindAllStringSubmatch self.Value) 0).bind (fun m => index m 1)

/-- `Version.MajorMinor` (lines 270-273). -/
def Version.MajorMinor (self : Version) : Res String :=
  index (regexMajorMinor.FindAllString self.Value) 0

/-- `Version.MajorMinorPatch` (lines 276-279). -/
def Version.MajorMinorPatch (self : Version) : Res String :=
  index (regexMajorMinorPatch.FindAllString self.Value) 0

/-- `Version.BeforeComma` (lines 282-285). -/
def Version.BeforeComma (self : Version) : Res String :=
  (index ((regexBefore ',').FindAllStringSubmatch self.Value) 0).bind (fun m => index m 1)

/-- `Version.AfterComma` (lines 288-291). -/
def Version.AfterComma (self : Version) : Res String :=
  (index ((regexAfter ',').FindAllStringSubmatch self.Value) 0).bind (fun m => index m 1)

/-- `Version.BeforeColon` (lines 294-297). -/
def Version.BeforeColon (self : Version) : Res String :=
  (index ((regexBefore ':').FindAllStringSubmatch self.Value) 0).bind (fun m => index m 1)

/-- `Version.AfterColon` (lines 300-303). -/
def Version.AfterColon (self : Version) : Res String :=
  (index ((regexAfter ':').FindAllStringSubmatch self.Value) 0).bind (fun m => index m 1)

/-- `Version.NoDots` (lines 306-309). -/
def Version.NoDots (self : Version) : Res String :=
  regexDot.ReplaceAllString self.Value ""

/-- `Version.DotsToUnderscores` (lines 312-315). -/
def Version.DotsToUnderscores (self : Version) : Res String :=
  regexDot.ReplaceAllString self.Value "_"

/-- `Version.DotsToHyphens` (lines 318-321). -/
def Version.DotsToHyphens (self : Version) : Res String :=
  regexDot.ReplaceAllString self.Value "-"

/-! ## Interpolation -/

/-- The expression `(#{version})|(#{version\.[^}]*.[^{]*})` (line 328). -/
def regexInterpolations : Re :=
  .alt (.cap 1 (.str "#\x7bversion\x7d"))
    (.cap 2 (.cat (.str "#\x7bversion.")
      (.cat (.star (.noneOf ['}'])) (.cat .dot (.cat (.star (.noneOf ['{'])) (.lit '}'))))))

/-- The expression `(?:^#{version\.)(.*)}` (line 329). -/
def regexAllMethods : Re :=
  .cat (.cat .bot (.str "#\x7bversion.")) (.cat (.cap 1 (.star .dot)) (.lit '}'))

/-- The loop over the methods of one interpolation (lines 351-393), from `part` on.  The
result is `none` when a method is unknown, the point at which `InterpolateIntoString`
returns. -/
def applyMethods : List String → String → Res (Option String)
  | [], part => .ok (some part)
  | method :: methods, part =>
    match method with
    | "major" => (NewVersion part).Major.bind (applyMethods methods)
    | "minor" => (NewVersion part).Minor.bind (applyMethods methods)
    | "patch" => (NewVersion part).Patch.bind (applyMethods methods)
    | "major_minor" => (NewVersion part).MajorMinor.bind (applyMethods methods)
    | "major_minor_patch" => (NewVersion part).MajorMinorPatch.bind (applyMethods methods)
    | "before_comma" => (NewVersion part).BeforeComma.bind (applyMethods methods)
    | "after_comma" => (NewVersion part).AfterComma.bind (applyMethods methods)
    | "before_colon" => (NewVersion part).BeforeColon.bind (applyMethods methods)
    | "after_colon" => (NewVersion part).AfterColon.bind (applyMethods methods)
    | "no_dots" => (NewVersion part).NoDots.bind (applyMethods methods)
    | "dots_to_underscores" => (NewVersion part).DotsToUnderscores.bind (applyMethods methods)
    | "dots_to_hyphens" => (NewVersion part).DotsToHyphens.bind (applyMethods methods)
    | _ => .ok none

/-- The loop over the interpolations found in the template (lines 335-397), from the
accumulated `result` on. -/
def interpolateLoop (self : Version) : List (List String) → String → Res String
  | [], result => .ok result
  | m :: ms, result =>
    (index m 0).bind (fun found =>
      let methodsAll := regexAllMethods.FindAllStringSubmatch found
      if methodsAll.length < 1 then
        (MustCompile found).bind (fun re =>
          (re.ReplaceAllString result self.Value).bind (fun result =>
            interpolateLoop self ms result))
      else
        ((index methodsAll 0).bind (fun m0 => index m0 1)).bind (fun chain =>
          (applyMethods (Split chain) self.Value).bind (fun part =>
            match part with
            | none => .ok result
            | some part =>
              (MustCompile found).bind (fun re =>
                (re.ReplaceAllString result part).bind (fun result =>
                  interpolateLoop self ms result)))))

/-- `Version.InterpolateIntoString` (lines 325-400). -/
def Version.InterpolateIntoString (self : Version) (content : String) : Res String :=
  interpolateLoop self (regexInterpolations.FindAllStringSubmatch content) content

/-! ## Notions used to state the claims -/

/-- The number of versions, counted over all groups, whose value is `s`. -/
def occurrences (groups : List Group) (s : String) : Int :=
  ((groups.flatMap (fun g => g.Versions)).countP (fun v => v.Value = s) : Nat)

/-- The choice made at line 118: the running `preferred` after looking at `v`. -/
def pickPreferred (w : String → Int) (preferred v : Version) : Version :=
  if preferred.Value = "" ∨ preferred.Weight < w v.Value then
    { Value := v.Value, Weight := w v.Value, Prerelease := v.Prerelease }
  else preferred

/-- `p` carries the value and the count of the earliest version of `vs` whose count `w` is
the largest among the versions of `vs`. -/
def IsEarliestMax (w : String → Int) (vs : List Version) (p : Version) : Prop :=
  ∃ pre v post, vs = pre ++ v :: post ∧ p.Value = v.Value ∧ p.Weight = w v.Value ∧
    (∀ u ∈ pre, w u.Value < w v.Value) ∧ (∀ u ∈ post, w u.Value ≤ w v.Value)

/-- The key under which `GroupVersions` files a group (lines 146-151); `""` when the group has
neither a set preferred version nor a version. -/
def groupKey (g : Group) : String :=
  if g.PreferredVersion.Value ≠ "" then g.PreferredVersion.Value
  else ((g.Versions.head?).map (fun v => v.Value)).getD ""

/-- The distinct elements of a list, each at the place of its first occurrence (see
`mem_firstSeen` and `firstSeen_nodup`). -/
def firstSeen : List String → List String
  | [] => []
  | k :: ks => k :: (firstSeen ks).filter (fun k' => k' ≠ k)

/-- The first url of every group filed under `k`, in the order of the groups. -/
def firstUrls (gs : List Group) (k : String) : List String :=
  (gs.filter (fun g => groupKey g = k)).filterMap (fun g => g.Urls.head?)

/-- What the first loop of `GroupVersions` has established after the groups `p`. -/
def GVInv (p : List Group) (st : GVState) : Prop :=
  (∀ g ∈ p, g.Versions ≠ [] ∧ g.Urls ≠ []) ∧
  st.keys = firstSeen ((p.map groupKey).filter (fun k => k ≠ "")) ∧
  (∀ k, st.encountered k = true ↔ k ∈ st.keys) ∧
  (∀ k, k ≠ "" → st.urls k = firstUrls p k) ∧
  (∀ k ∈ st.keys, ∃ g ∈ p, groupKey g = k ∧ st.versions k = g.PreferredVersion)

/-- The average that `CleanByWeights` compares with (line 189): the truncating quotient of the
64-bit sum of the preferred weights by the number of groups. -/
def averageWeight (gs : List Group) : Int :=
  Int.tdiv (wrapInt64 ((gs.map (fun g => g.PreferredVersion.Weight)).sum)) gs.length

/-! ## Inputs on which the claims are evaluated -/

/-- Two groups in which the empty value is seen twice and `"a"` once. -/
def emptyValueGroups : Groups :=
  { Groups := [
      { Versions := [{ Value := "", Weight := 0, Prerelease := false },
                     { Value := "a", Weight := 0, Prerelease := false }],
        PreferredVersion := { Value := "", Weight := 0, Prerelease := false }, Urls := [] },
      { Versions := [{ Value := "", Weight := 0, Prerelease := false }],
        PreferredVersion := { Value := "", Weight := 0, Prerelease := false }, Urls := [] }] }

/-- Three groups that hold `"1.0"` and one group that holds only `"2.0"`. -/
def threeAndOne : Groups :=
  { Groups := [
      { Versions := [{ Value := "3", Weight := 0, Prerelease := false },
                     { Value := "1.0", Weight := 0, Prerelease := false }],
        PreferredVersion := { Value := "3", Weight := 0, Prerelease := false }, Urls := ["u1"] },
      { Versions := [{ Value := "1.0", Weight := 0, Prerelease := false }],
        PreferredVersion := { Value := "1.0", Weight := 0, Prerelease := false }, Urls := ["u2"] },
      { Versions := [{ Value := "1.0", Weight := 0, Prerelease := false }],
        PreferredVersion := { Value := "1.0", Weight := 0, Prerelease := false }, Urls := ["u3"] },
      { Versions := [{ Value := "2.0", Weight := 0, Prerelease := false }],
        PreferredVersion := { Value := "2.0", Weight := 0, Prerelease := false }, Urls := ["u4"] }] }

/-- Two groups that prefer `"1.0"`, with the single urls `u1` and `u2`. -/
def twoPreferring : Groups :=
  { Groups := [
      { Versions := [{ Value := "1.0", Weight := 2, Prerelease := false }],
        PreferredVersion := { Value := "1.0", Weight := 2, Prerelease := false },
        Urls := ["u1"] },
      { Versions := [{ Value := "0.9", Weight := 1, Prerelease := false },
                     { Value := "1.0", Weight := 2, Prerelease := false }],
        PreferredVersion := { Value := "1.0", Weight := 2, Prerelease := false },
        Urls := ["u2"] }] }

/-- A group built from a list of versions, as `NewGroup(versions)` builds it: the preferred
version is left unset. -/
def unsetPreferred : Groups :=
  { Groups := [
      { Versions := [{ Value := "1.0", Weight := 0, Prerelease := false }],
        PreferredVersion := zeroVersion, Urls := ["u1"] },
      { Versions := [{ Value := "2.0", Weight := 0, Prerelease := false }],
        PreferredVersion := zeroVersion, Urls := ["u2"] }] }

/-- A group with a url that has neither a set preferred version nor a version. -/
def noVersions : Groups :=
  { Groups := [{ Versions := [], PreferredVersion := zeroVersion, Urls := ["u1"] }] }

/-- Three groups without urls, of the weights `1`, `5` and `3`, and one of weight `0` with a
url. -/
def mixedWeights : Groups :=
  { Groups := [
      { Versions := [{ Value := "1.0", Weight := 1, Prerelease := false }],
        PreferredVersion := { Value := "1.0", Weight := 1, Prerelease := false }, Urls := [] },
      { Versions := [{ Value := "2.0", Weight := 5, Prerelease := false }],
        PreferredVersion := { Value := "2.0", Weight := 5, Prerelease := false }, Urls := [] },
      { Versions := [{ Value := "3.0", Weight := 3, Prerelease := false }],
        PreferredVersion := { Value := "3.0", Weight := 3, Prerelease := false }, Urls := [] },
      { Versions := [{ Value := "4.0", Weight := 0, Prerelease := false }],
        PreferredVersion := { Value := "4.0", Weight := 0, Prerelease := false },
        Urls := ["u4"] }] }

/-! ## Notions used to state the claims on texts -/

/-- The texts that remain after a greedy repetition of a one-character expression `p` on `l`,
in the order of preference: after the longest run first, `l` itself last. -/
def dropsDown (p : Char → Bool) : List Char → List (List Char)
  | [] => [[]]
  | c :: cs => if p c then dropsDown p cs ++ [c :: cs] else [c :: cs]

/-- An expression that matches at the beginning of the text only. -/
def Anchored (r : Re) : Prop :=
  ∀ (total : Nat) (s : MState), s.rest.length ≠ total → r.run total s = []

/-- What `Major` returns on the characters of a value. -/
def majorOf (l : List Char) : Res String :=
  match l with
  | a :: _ => if a.isDigit then .ok (String.mk [a]) else .panic
  | _ => .panic

/-- What `Minor` returns on the characters of a value. -/
def minorOf (l : List Char) : Res String :=
  match l with
  | a :: b :: c :: _ =>
    if a.isDigit && b == '.' && c.isDigit then .ok (String.mk [c]) else .panic
  | _ => .panic

/-- What `Patch` returns on the characters of a value. -/
def patchOf (l : List Char) : Res String :=
  match l with
  | a :: b :: c :: d :: e :: _ =>
    if a.isDigit && b == '.' && c.isDigit && d == '.' && e.isDigit then .ok (String.mk [e])
    else .panic
  | _ => .panic

/-- What `MajorMinor` returns on the characters of a value. -/
def majorMinorOf (l : List Char) : Res String :=
  match l with
  | a :: b :: c :: _ =>
    if a.isDigit && b == '.' && c.isDigit then .ok (String.mk [a, b, c]) else .panic
  | _ => .panic

/-- What `MajorMinorPatch` returns on the characters of a value. -/
def majorMinorPatchOf (l : List Char) : Res String :=
  match l with
  | a :: b :: c :: d :: e :: _ =>
    if a.isDigit && b == '.' && c.isDigit && d == '.' && e.isDigit then
      .ok (String.mk [a, b, c, d, e])
    else .panic
  | _ => .panic

/-- The text has a `sep` that no newline precedes. -/
def HasSepBefore (sep : Char) (l : List Char) : Prop :=
  ∃ pre post, l = pre ++ sep :: post ∧ '\n' ∉ pre

/-- The text has a `sep` that no newline follows. -/
def HasSepAfter (sep : Char) (l : List Char) : Prop :=
  ∃ pre post, l = pre ++ sep :: post ∧ '\n' ∉ post

/-- The expression that matches one character for each predicate of `ps`, in order. -/
def Re.seq (ps : List (Char → Bool)) : Re := ps.foldr (fun p r => .cat (.set p) r) .eps

/-- The predicate of a literal character. -/
def litPred (c : Char) : Char → Bool := fun x => x == c

/-- Whether the first characters of `l` satisfy the predicates `ps`, one by one. -/
def matchesPrefix : List (Char → Bool) → List Char → Bool
  | [], _ => true
  | _ :: _, [] => false
  | p :: ps, c :: cs => p c && matchesPrefix ps cs

/-- The text with which every interpolation begins. -/
def marker : List Char := "#\x7bversion".data

/-- The text of a list of groups, each a separator and a run of digits. -/
def groupsText (groups : List (Char × List Char)) : List Char :=
  groups.flatMap (fun g => g.1 :: g.2)

/-- A token as C18 describes it: the run of digits `d0` followed by the groups `groups`, each
one separator and a non-empty run of digits. -/
def IsToken (d0 : List Char) (groups : List (Char × List Char)) : Prop :=
  d0 ≠ [] ∧ (∀ c ∈ d0, c.isDigit = true) ∧ groups ≠ [] ∧
    ∀ g ∈ groups, g.1 ∈ ['.', '_', '-'] ∧ g.2 ≠ [] ∧ ∀ c ∈ g.2, c.isDigit = true

/-- The repeated part of `regexVersion`. -/
def regexVersionGroup : Re :=
  .alt (.cat (.oneOf ['.', '_', '-']) (.plus .digit)) .word

/-- The texts `ms` joined by dots. -/
def joinDots : List (List Char) → List Char
  | [] => []
  | [m] => m
  | m :: m' :: ms => m ++ '.' :: joinDots (m' :: ms)

/-- The predicate that `compilePattern` gives a character of a pattern. -/
def patPred (c : Char) : Char → Bool :=
  if c = '.' then (fun x => x != '\n') else litPred c

/-- A character that stands for itself, or is a dot, in a pattern. -/
def plainChar (c : Char) : Bool :=
  !(['\\', '(', ')', '|', '^', '$', '[', '*', '+', '?', '\x7b'].contains c)

/-- The text with which an interpolation with methods begins. -/
def opening : List Char := "#\x7bversion.".data

/-- The interpolation of the chain of methods `chain`. -/
def tokenOf (chain : List Char) : List Char := opening ++ chain ++ ['\x7d']

/-- Every closing brace of the text has an opening brace before it. -/
def ClosedBraces (suf : List Char) : Prop :=
  ∀ pre post, suf = pre ++ '\x7d' :: post → '\x7b' ∈ pre

/-- The predicate of a negated class. -/
def notIn (cs : List Char) : Char → Bool := fun x => !cs.contains x

/-- The end of `regexInterpolations`: `[^{]*}`. -/
def regexClose : Re := .cat (.star (.noneOf ['\x7b'])) (.lit '\x7d')

/-- The part of `regexInterpolations` after the methods: `.[^{]*}`. -/
def regexTail : Re := .cat .dot regexClose

/-- The characters of a chain of methods: none is a brace, a newline or an operator of a
pattern. -/
def ChainOk (chain : List Char) : Prop :=
  chain ≠ [] ∧ ∀ c ∈ chain, c ≠ '\x7d' ∧ c ≠ '\n' ∧ plainChar c = true

/-- The names of the methods that `InterpolateIntoString` knows (lines 353-388). -/
def vocabulary : List String :=
  ["major", "minor", "patch", "major_minor", "major_minor_patch", "before_comma", "after_comma",
    "before_colon", "after_colon", "no_dots", "dots_to_underscores", "dots_to_hyphens"]

/-- The text begins with a decimal digit. -/
def StartsMajor (l : List Char) : Prop :=
  ∃ d rest, d.isDigit = true ∧ l = d :: rest

/-- The text begins with a decimal digit, a dot and a decimal digit. -/
def StartsMajorMinor (l : List Char) : Prop :=
  ∃ d1 d2 rest, d1.isDigit = true ∧ d2.isDigit = true ∧ l = d1 :: '.' :: d2 :: rest

/-- The text begins with three decimal digits that dots separate. -/
def StartsMajorMinorPatch (l : List Char) : Prop :=
  ∃ d1 d2 d3 rest, d1.isDigit = true ∧ d2.isDigit = true ∧ d3.isDigit = true ∧
    l = d1 :: '.' :: d2 :: '.' :: d3 :: rest

/-- The derivation result `r` is a string when `present` holds and a panic when it does not. -/
def PanicsUnless (r : Res String) (present : Prop) : Prop :=
  (present → ∃ out, r = .ok out) ∧ (¬ present → r = .panic)

/-- The group invariant of the data model: the preferred version is unset or is one of the
versions of the group. -/
@[reducible] def Group.Inv (g : Group) : Prop :=
  g.PreferredVersion.Value = "" ∨ g.PreferredVersion ∈ g.Versions

/-- A group built with `AddVersion("1.0", 0, true)`. -/
def prereleaseGroups : Groups :=
  { Groups := [NewGroup.AddVersion "1.0" 0 true] }

/-- Two groups without urls whose preferred weight is the least 64-bit integer. -/
def minWeights : Groups :=
  { Groups := [
      { Versions := [{ Value := "1.0", Weight := -9223372036854775808, Prerelease := false }],
        PreferredVersion := { Value := "1.0", Weight := -9223372036854775808, Prerelease := false },
        Urls := [] },
      { Versions := [{ Value := "2.0", Weight := -9223372036854775808, Prerelease := false }],
        PreferredVersion := { Value := "2.0", Weight := -9223372036854775808, Prerelease := false },
        Urls := [] }] }

/-! ## Lemmas -/

theorem countVersion_apply (w : String → Int) (v : Version) (s : String) :
    countVersion w v s = w s + (if v.Value = s then 1 else 0) := by
  unfold countVersion mapSet
  by_cases h0 : w v.Value = 0 <;> by_cases hs : s = v.Value
  · subst hs; simp [h0]
  · have : ¬ v.Value = s := fun h => hs h.symm
    simp [h0, hs, this]
  · subst hs; simp [h0]
  · have : ¬ v.Value = s := fun h => hs h.symm
    simp [h0, hs, this]

theorem foldl_countVersion_apply (vs : List Version) (w : String → Int) (s : String) :
    (vs.foldl countVersion w) s = w s + (vs.countP (fun v => v.Value = s) : Nat) := by
  induction vs generalizing w with
  | nil => simp
  | cons v vs ih =>
    rw [List.foldl_cons, ih, countVersion_apply, List.countP_cons]
    by_cases h : v.Value = s
    · simp [h]; ring
    · simp [h]

theorem foldl_groups_count_apply (gs : List Group) (w : String → Int) (s : String) :
    (gs.foldl (fun weights group => group.Versions.foldl countVersion weights) w) s =
      w s + ((gs.flatMap (fun g => g.Versions)).countP (fun v => v.Value = s) : Nat) := by
  induction gs generalizing w with
  | nil => simp
  | cons g gs ih =>
    rw [List.foldl_cons, ih, foldl_countVersion_apply, List.flatMap_cons, List.countP_append]
    push_cast; ring

theorem countWeights_eq (gs : List Group) (s : String) :
    countWeights gs s = occurrences gs s := by
  unfold countWeights occurrences
  rw [foldl_groups_count_apply]; simp

theorem addVersion_versions (g : Group) (s : String) (w : Int) (p : Bool) :
    (g.AddVersion s w p).Versions = g.Versions ++ [{ Value := s, Weight := w, Prerelease := p }] := by
  unfold Group.AddVersion
  dsimp only
  split <;> rfl

theorem addVersion_urls (g : Group) (s : String) (w : Int) (p : Bool) :
    (g.AddVersion s w p).Urls = g.Urls := by
  unfold Group.AddVersion
  dsimp only
  split <;> rfl

theorem foldl_weightenStep_versions (w : String → Int) (vs : List Version) (st : Version × Group) :
    (vs.foldl (weightenStep w) st).2.Versions =
      st.2.Versions ++ vs.map (fun v => { Value := v.Value, Weight := w v.Value, Prerelease := false }) := by
  induction vs generalizing st with
  | nil => simp
  | cons v vs ih =>
    rw [List.foldl_cons, ih]
    simp [weightenStep, addVersion_versions]

theorem foldl_weightenStep_urls (w : String → Int) (vs : List Version) (st : Version × Group) :
    (vs.foldl (weightenStep w) st).2.Urls = st.2.Urls := by
  induction vs generalizing st with
  | nil => simp
  | cons v vs ih =>
    rw [List.foldl_cons, ih]
    simp [weightenStep, addVersion_urls]

theorem weightenGroup_versions (w : String → Int) (g : Group) :
    (weightenGroup w g).Versions =
      g.Versions.map (fun v => { Value := v.Value, Weight := w v.Value, Prerelease := false }) := by
  unfold weightenGroup
  rw [foldl_weightenStep_versions]
  simp [NewGroup]

theorem weightenGroup_urls (w : String → Int) (g : Group) :
    (weightenGroup w g).Urls = g.Urls := by
  unfold weightenGroup
  rw [foldl_weightenStep_urls]

theorem foldl_addGroup_map (f : Group → Group) (gs : List Group) (acc : Groups) :
    (gs.foldl (fun groups group => groups.AddGroup (f group)) acc).Groups =
      acc.Groups ++ gs.map f := by
  induction gs generalizing acc with
  | nil => simp
  | cons g gs ih =>
    rw [List.foldl_cons, ih]
    simp [Groups.AddGroup]

theorem weighten_groups (gs : Groups) :
    gs.Weighten.Groups = gs.Groups.map (weightenGroup (countWeights gs.Groups)) := by
  unfold Groups.Weighten
  dsimp only
  rw [foldl_addGroup_map]
  simp [NewGroups]

theorem foldl_weightenStep_fst (w : String → Int) (vs : List Version) (st : Version × Group) :
    (vs.foldl (weightenStep w) st).1 = vs.foldl (pickPreferred w) st.1 := by
  induction vs generalizing st with
  | nil => simp
  | cons v vs ih =>
    rw [List.foldl_cons, List.foldl_cons, ih]
    rfl

theorem foldl_weightenStep_preferred (w : String → Int) (vs : List Version)
    (st : Version × Group) (hne : vs ≠ []) :
    (vs.foldl (weightenStep w) st).2.PreferredVersion = (vs.foldl (weightenStep w) st).1 := by
  induction vs generalizing st with
  | nil => exact absurd rfl hne
  | cons v vs ih =>
    rw [List.foldl_cons]
    by_cases h : vs = []
    · subst h; rfl
    · exact ih _ h

theorem weightenGroup_preferred (w : String → Int) (g : Group) (hne : g.Versions ≠ []) :
    (weightenGroup w g).PreferredVersion = g.Versions.foldl (pickPreferred w) zeroVersion := by
  unfold weightenGroup
  rw [foldl_weightenStep_preferred w _ _ hne, foldl_weightenStep_fst]

theorem pickPreferred_earliest (w : String → Int) (l : List Version) (p v : Version)
    (hp : IsEarliestMax w l p) (hpv : p.Value ≠ "") :
    IsEarliestMax w (l ++ [v]) (pickPreferred w p v) := by
  obtain ⟨pre, v0, post, hl, hval, hwt, hpre, hpost⟩ := hp
  unfold pickPreferred
  by_cases hlt : p.Weight < w v.Value
  · rw [if_pos (Or.inr hlt)]
    refine ⟨l, v, [], by simp, rfl, rfl, ?_, by simp⟩
    intro u hu
    rw [hl] at hu
    rw [hwt] at hlt
    rcases List.mem_append.1 hu with h | h
    · exact lt_trans (hpre u h) hlt
    · rcases List.mem_cons.1 h with h | h
      · rw [h]; exact hlt
      · exact lt_of_le_of_lt (hpost u h) hlt
  · have : ¬ (p.Value = "" ∨ p.Weight < w v.Value) := by
      rintro (h | h)
      · exact hpv h
      · exact hlt h
    rw [if_neg this]
    refine ⟨pre, v0, post ++ [v], by simp [hl], hval, hwt, hpre, ?_⟩
    intro u hu
    rcases List.mem_append.1 hu with h | h
    · exact hpost u h
    · rw [List.mem_singleton.1 h, ← hwt]; exact not_lt.1 hlt

theorem pickPreferred_value_ne (w : String → Int) (p v : Version)
    (hv : v.Value ≠ "") : (pickPreferred w p v).Value ≠ "" := by
  unfold pickPreferred
  split
  · exact hv
  · rename_i h
    exact fun hp => h (Or.inl hp)

theorem foldl_pickPreferred_earliest (w : String → Int) (vs l : List Version) (p : Version)
    (hp : IsEarliestMax w l p) (hpv : p.Value ≠ "") (hvs : ∀ v ∈ vs, v.Value ≠ "") :
    IsEarliestMax w (l ++ vs) (vs.foldl (pickPreferred w) p) := by
  induction vs generalizing l p with
  | nil => simpa using hp
  | cons v vs ih =>
    have h1 := pickPreferred_earliest w l p v hp hpv
    have h2 := pickPreferred_value_ne w p v (hvs v (List.mem_cons_self _ _))
    have := ih (l ++ [v]) (pickPreferred w p v) h1 h2
      (fun u hu => hvs u (List.mem_cons_of_mem _ hu))
    simpa using this

theorem foldl_pickPreferred_zero (w : String → Int) (vs : List Version) (hne : vs ≠ [])
    (hvs : ∀ v ∈ vs, v.Value ≠ "") :
    IsEarliestMax w vs (vs.foldl (pickPreferred w) zeroVersion) := by
  cases vs with
  | nil => exact absurd rfl hne
  | cons v vs =>
    rw [List.foldl_cons]
    have hv := hvs v (List.mem_cons_self _ _)
    have h0 : pickPreferred w zeroVersion v =
        { Value := v.Value, Weight := w v.Value, Prerelease := v.Prerelease } := by
      simp [pickPreferred, zeroVersion]
    have hbase : IsEarliestMax w [v] (pickPreferred w zeroVersion v) := by
      rw [h0]
      exact ⟨[], v, [], rfl, rfl, rfl, by simp, by simp⟩
    have := foldl_pickPreferred_earliest w vs [v] _ hbase
      (pickPreferred_value_ne w zeroVersion v hv) (fun u hu => hvs u (List.mem_cons_of_mem _ hu))
    simpa using this

theorem mem_firstSeen (l : List String) (k : String) : k ∈ firstSeen l ↔ k ∈ l := by
  induction l with
  | nil => simp [firstSeen]
  | cons a l ih =>
    simp only [firstSeen, List.mem_cons, List.mem_filter, ih]
    by_cases h : k = a
    · simp [h]
    · simp [h]

theorem firstSeen_nodup (l : List String) : (firstSeen l).Nodup := by
  induction l with
  | nil => simp [firstSeen]
  | cons a l ih =>
    simp only [firstSeen, List.nodup_cons, List.mem_filter]
    refine ⟨?_, ih.filter _⟩
    rintro ⟨-, h⟩
    simp at h

theorem firstSeen_append_singleton (l : List String) (k : String) :
    firstSeen (l ++ [k]) = if k ∈ l then firstSeen l else firstSeen l ++ [k] := by
  induction l with
  | nil => simp [firstSeen]
  | cons a l ih =>
    rw [List.cons_append]
    simp only [firstSeen]
    rw [ih]
    by_cases hk : k ∈ l
    · simp [hk]
    · by_cases ha : k = a
      · subst ha
        simp [hk, List.filter_append]
      · simp [hk, ha, List.filter_append]

theorem foldlM_snoc (p : List Group) (g : Group) (st0 : GVState) :
    (p ++ [g]).foldlM groupVersionsStep st0 =
      (p.foldlM groupVersionsStep st0).bind (fun st => groupVersionsStep st g) := by
  rw [List.foldlM_append]
  cases h : List.foldlM groupVersionsStep st0 p with
  | none => rfl
  | some st =>
    simp [List.foldlM]

theorem groupVersionsStep_eq (st : GVState) (g : Group) (first : Version) (vs : List Version)
    (u : String) (us : List String) (hV : g.Versions = first :: vs) (hU : g.Urls = u :: us) :
    groupVersionsStep st g =
      some (if groupKey g ≠ "" then
        if st.encountered (groupKey g) then
          { st with urls := mapSet st.urls (groupKey g) (st.urls (groupKey g) ++ [u]) }
        else
          { keys := st.keys ++ [groupKey g]
            encountered := mapSet st.encountered (groupKey g) true
            urls := mapSet st.urls (groupKey g) [u]
            versions := mapSet st.versions (groupKey g) g.PreferredVersion }
      else st) := by
  have hk : groupKey g =
      if g.PreferredVersion.Value ≠ "" then g.PreferredVersion.Value else first.Value := by
    simp [groupKey, hV]
  unfold groupVersionsStep
  rw [hV, hU]
  dsimp only
  rw [← hk]
  by_cases h1 : groupKey g ≠ ""
  · rw [if_pos h1, if_pos h1]
    by_cases h2 : st.encountered (groupKey g) = true
    · rw [if_pos h2, if_pos h2]
    · rw [if_neg h2, if_neg h2]
  · rw [if_neg h1, if_neg h1]

theorem groupVersionsStep_some (st st' : GVState) (g : Group)
    (h : groupVersionsStep st g = some st') : g.Versions ≠ [] ∧ g.Urls ≠ [] := by
  unfold groupVersionsStep at h
  cases hV : g.Versions with
  | nil => rw [hV] at h; simp at h
  | cons first vs =>
    cases hU : g.Urls with
    | nil => rw [hV, hU] at h; simp at h
    | cons u us => simp

theorem firstUrls_snoc (p : List Group) (g : Group) (k : String) :
    firstUrls (p ++ [g]) k =
      firstUrls p k ++ (if groupKey g = k then (g.Urls.head?).toList else []) := by
  unfold firstUrls
  rw [List.filter_append, List.filterMap_append]
  by_cases h : groupKey g = k
  · simp only [h, if_true, List.filter_cons, List.filter_nil, decide_True]
    cases hh : g.Urls.head? <;> simp [List.filterMap_cons, hh]
  · simp [h, List.filter_cons]

theorem GVInv_init : GVInv [] GVState.init := by
  refine ⟨by simp, by simp [GVState.init, firstSeen], by simp [GVState.init], ?_, by simp [GVState.init]⟩
  intro k _
  simp [GVState.init, firstUrls]

theorem GVInv_snoc (p : List Group) (st st' : GVState) (g : Group) (hinv : GVInv p st)
    (h : groupVersionsStep st g = some st') : GVInv (p ++ [g]) st' := by
  obtain ⟨hgood, hkeys, henc, hurls, hvers⟩ := hinv
  obtain ⟨hVne, hUne⟩ := groupVersionsStep_some st st' g h
  obtain ⟨first, vs, hV⟩ := List.exists_cons_of_ne_nil hVne
  obtain ⟨u, us, hU⟩ := List.exists_cons_of_ne_nil hUne
  rw [groupVersionsStep_eq st g first vs u us hV hU] at h
  have hhead : g.Urls.head? = some u := by rw [hU]; rfl
  have hfilter : ((p ++ [g]).map groupKey).filter (fun k => k ≠ "") =
      (p.map groupKey).filter (fun k => k ≠ "") ++ (if groupKey g ≠ "" then [groupKey g] else []) := by
    rw [List.map_append, List.filter_append]
    by_cases hk : groupKey g ≠ "" <;> simp [hk, List.filter_cons]
  have hgood' : ∀ g' ∈ p ++ [g], g'.Versions ≠ [] ∧ g'.Urls ≠ [] := by
    intro g' hg'
    rcases List.mem_append.1 hg' with hm | hm
    · exact hgood g' hm
    · rw [List.mem_singleton.1 hm]; exact ⟨hVne, hUne⟩
  by_cases hk : groupKey g ≠ ""
  · rw [if_pos hk] at h
    by_cases he : st.encountered (groupKey g) = true
    · rw [if_pos he] at h
      have hst : st' = { st with urls := mapSet st.urls (groupKey g) (st.urls (groupKey g) ++ [u]) } :=
        (Option.some.inj h).symm
      have hmem : groupKey g ∈ (p.map groupKey).filter (fun k => k ≠ "") := by
        have := (henc (groupKey g)).1 he
        rw [hkeys] at this
        exact (mem_firstSeen _ _).1 this
      subst hst
      refine ⟨hgood', ?_, henc, ?_, ?_⟩
      · show st.keys = _
        rw [hfilter, if_pos hk, firstSeen_append_singleton, if_pos hmem]
        exact hkeys
      · intro k hkne
        show mapSet st.urls (groupKey g) (st.urls (groupKey g) ++ [u]) k = _
        rw [firstUrls_snoc, hhead]
        unfold mapSet
        by_cases hkk : k = groupKey g
        · subst hkk
          simp [hurls _ hk]
        · have : ¬ groupKey g = k := fun hh => hkk hh.symm
          simp [hkk, this, hurls k hkne]
      · intro k hkin
        obtain ⟨g0, hg0, hk0, hv0⟩ := hvers k hkin
        exact ⟨g0, List.mem_append_left _ hg0, hk0, hv0⟩
    · rw [if_neg he] at h
      have hst := (Option.some.inj h).symm
      have hnmem : groupKey g ∉ (p.map groupKey).filter (fun k => k ≠ "") := by
        intro hm
        apply he
        apply (henc (groupKey g)).2
        rw [hkeys]
        exact (mem_firstSeen _ _).2 hm
      subst hst
      refine ⟨hgood', ?_, ?_, ?_, ?_⟩
      · show st.keys ++ [groupKey g] = _
        rw [hfilter, if_pos hk, firstSeen_append_singleton, if_neg hnmem, hkeys]
      · intro k
        show mapSet st.encountered (groupKey g) true k = true ↔ k ∈ st.keys ++ [groupKey g]
        unfold mapSet
        by_cases hkk : k = groupKey g
        · simp [hkk]
        · simp [hkk, henc k]
      · intro k hkne
        show mapSet st.urls (groupKey g) [u] k = _
        rw [firstUrls_snoc, hhead]
        unfold mapSet
        by_cases hkk : k = groupKey g
        · subst hkk
          have hnone : firstUrls p (groupKey g) = [] := by
            unfold firstUrls
            have : p.filter (fun g' => groupKey g' = groupKey g) = [] := by
              rw [List.filter_eq_nil_iff]
              intro g' hg' hgk
              apply hnmem
              rw [List.mem_filter]
              refine ⟨List.mem_map.2 ⟨g', hg', of_decide_eq_true hgk⟩, ?_⟩
              simpa using hk
            rw [this]; rfl
          simp [hnone]
        · have : ¬ groupKey g = k := fun hh => hkk hh.symm
          simp [hkk, this, hurls k hkne]
      · intro k hkin
        show ∃ g0 ∈ p ++ [g], groupKey g0 = k ∧ mapSet st.versions (groupKey g) g.PreferredVersion k = g0.PreferredVersion
        unfold mapSet
        by_cases hkk : k = groupKey g
        · exact ⟨g, by simp, hkk.symm, by simp [hkk]⟩
        · have hkin' : k ∈ st.keys := by
            rcases List.mem_append.1 hkin with hm | hm
            · exact hm
            · exact absurd (List.mem_singleton.1 hm) hkk
          obtain ⟨g0, hg0, hk0, hv0⟩ := hvers k hkin'
          exact ⟨g0, List.mem_append_left _ hg0, hk0, by simp [hkk, hv0]⟩
  · rw [if_neg hk] at h
    have hst := (Option.some.inj h).symm
    subst hst
    have hk' : groupKey g = "" := not_not.1 hk
    refine ⟨hgood', ?_, henc, ?_, ?_⟩
    · rw [hfilter, if_neg hk, List.append_nil]; exact hkeys
    · intro k hkne
      rw [firstUrls_snoc, hurls k hkne]
      have : ¬ groupKey g = k := fun hh => hkne (hh ▸ hk')
      simp [this]
    · intro k hkin
      obtain ⟨g0, hg0, hk0, hv0⟩ := hvers k hkin
      exact ⟨g0, List.mem_append_left _ hg0, hk0, hv0⟩

theorem GVInv_foldlM (p : List Group) (st : GVState)
    (h : p.foldlM groupVersionsStep GVState.init = some st) : GVInv p st := by
  induction p using List.reverseRecOn generalizing st with
  | nil =>
    simp [List.foldlM] at h
    rw [← h]; exact GVInv_init
  | append_singleton p g ih =>
    rw [foldlM_snoc] at h
    cases hp : List.foldlM groupVersionsStep GVState.init p with
    | none => rw [hp] at h; simp at h
    | some st0 =>
      rw [hp] at h
      exact GVInv_snoc p st0 st g (ih st0 hp) h

theorem foldlM_groupVersionsStep_isSome (p : List Group) (st0 : GVState)
    (hgood : ∀ g ∈ p, g.Versions ≠ [] ∧ g.Urls ≠ []) :
    ∃ st, p.foldlM groupVersionsStep st0 = some st := by
  induction p generalizing st0 with
  | nil => exact ⟨st0, rfl⟩
  | cons g p ih =>
    obtain ⟨hVne, hUne⟩ := hgood g (List.mem_cons_self _ _)
    obtain ⟨first, vs, hV⟩ := List.exists_cons_of_ne_nil hVne
    obtain ⟨u, us, hU⟩ := List.exists_cons_of_ne_nil hUne
    rw [List.foldlM_cons, groupVersionsStep_eq st0 g first vs u us hV hU]
    exact ih _ (fun g' hg' => hgood g' (List.mem_cons_of_mem _ hg'))

theorem foldl_groupVersionsEmit (st : GVState) (ks : List String) (acc : Groups) :
    (ks.foldl (groupVersionsEmit st) acc).Groups =
      acc.Groups ++ ks.map (fun key =>
        { Versions := [st.versions key], PreferredVersion := st.versions key,
          Urls := st.urls key }) := by
  induction ks generalizing acc with
  | nil => simp
  | cons k ks ih =>
    rw [List.foldl_cons, ih]
    simp [groupVersionsEmit, Groups.AddGroup, Group.AddVersion, NewGroup, zeroVersion]

theorem groupVersions_eq (gs r : Groups) (h : gs.GroupVersions = some r) :
    ∃ st, gs.Groups.foldlM groupVersionsStep GVState.init = some st ∧
      r.Groups = st.keys.map (fun key =>
        { Versions := [st.versions key], PreferredVersion := st.versions key,
          Urls := st.urls key }) := by
  unfold Groups.GroupVersions at h
  cases hst : List.foldlM groupVersionsStep GVState.init gs.Groups with
  | none => rw [hst] at h; simp at h
  | some st =>
    rw [hst] at h
    simp only [Option.map_some'] at h
    refine ⟨st, rfl, ?_⟩
    rw [← Option.some.inj h, foldl_groupVersionsEmit]
    simp [NewGroups]

theorem foldl_keep_filter (P : Group → Prop) [DecidablePred P] (gs : List Group) (acc : Groups) :
    (gs.foldl (fun groups group => if P group then groups.AddGroup group else groups) acc).Groups =
      acc.Groups ++ gs.filter (fun g => decide (P g)) := by
  induction gs generalizing acc with
  | nil => simp
  | cons g gs ih =>
    rw [List.foldl_cons, ih]
    by_cases hp : P g
    · simp [hp, Groups.AddGroup, List.filter_cons]
    · simp [hp, List.filter_cons]

theorem wrapInt64_eq_self (x : Int) (hlo : -(2 : Int) ^ 63 ≤ x) (hhi : x < 2 ^ 63) :
    wrapInt64 x = x := by
  unfold wrapInt64
  rw [Int.emod_eq_of_lt] <;> omega

theorem wrapInt64_add_wrapInt64 (a b : Int) : wrapInt64 (wrapInt64 a + b) = wrapInt64 (a + b) := by
  unfold wrapInt64
  have h1 : (a + 2 ^ 63) % 2 ^ 64 - 2 ^ 63 + b + 2 ^ 63 = (a + 2 ^ 63) % 2 ^ 64 + b := by ring
  have h2 : a + b + 2 ^ 63 = a + 2 ^ 63 + b := by ring
  rw [h1, h2, Int.emod_add_emod]

theorem sumWeights_foldl (gs : List Group) (w : Int) :
    gs.foldl (fun w group => wrapInt64 (w + group.PreferredVersion.Weight)) (wrapInt64 w) =
      wrapInt64 (w + (gs.map (fun g => g.PreferredVersion.Weight)).sum) := by
  induction gs generalizing w with
  | nil => simp
  | cons g gs ih =>
    rw [List.foldl_cons, wrapInt64_add_wrapInt64, ih, List.map_cons, List.sum_cons, add_assoc]

theorem sumWeights_eq (gs : List Group) :
    sumWeights gs = wrapInt64 ((gs.map (fun g => g.PreferredVersion.Weight)).sum) := by
  have h0 : wrapInt64 0 = 0 := by decide
  have := sumWeights_foldl gs 0
  rw [h0, zero_add] at this
  exact this

theorem cleanByWeights_eq (gs : Groups) (hne : gs.Groups ≠ []) :
    gs.CleanByWeights = some { Groups := gs.Groups.filter (fun g =>
      decide (averageWeight gs.Groups ≤ g.PreferredVersion.Weight ∨ g.Urls ≠ [])) } := by
  unfold Groups.CleanByWeights
  have hlen : ¬ gs.Groups.length = 0 := by
    intro h; exact hne (List.length_eq_zero.1 h)
  simp only [hlen, if_false]
  congr 1
  have := foldl_keep_filter (fun group : Group => group.PreferredVersion.Weight ≥
    Int.tdiv (sumWeights gs.Groups) gs.Groups.length ∨ group.Urls.length > 0) gs.Groups NewGroups
  have hG : ∀ (a b : Groups), a.Groups = b.Groups → a = b := by
    intro a b h; cases a; cases b; simp at h; simp [h]
  apply hG
  rw [this, sumWeights_eq]
  simp only [NewGroups, List.nil_append, averageWeight]
  apply List.filter_congr
  intro g _
  simp [List.length_pos, ge_iff_le]

theorem cleanByWeights_none_iff (gs : Groups) : gs.CleanByWeights = none ↔ gs.Groups = [] := by
  constructor
  · intro h
    by_contra hne
    rw [cleanByWeights_eq gs hne] at h
    simp at h
  · intro h
    unfold Groups.CleanByWeights
    simp [h]

/-! ## Weighten: the claims -/

/-- C1.  `Weighten` keeps the groups, their order and the order of the version values inside
each group, and every version of the result carries as weight the number of versions of the
input, over all groups, that have its value; that number is at least one, and versions with
equal values carry equal weights wherever they stand. -/
theorem weighten_keeps_values_and_counts (gs : Groups) :
    gs.Weighten.Groups.map (fun g => g.Versions.map (fun v => v.Value)) =
        gs.Groups.map (fun g => g.Versions.map (fun v => v.Value)) ∧
      (∀ g ∈ gs.Weighten.Groups, ∀ v ∈ g.Versions,
        v.Weight = occurrences gs.Groups v.Value ∧ 1 ≤ v.Weight) ∧
      (∀ g ∈ gs.Weighten.Groups, ∀ v ∈ g.Versions, ∀ g' ∈ gs.Weighten.Groups,
        ∀ v' ∈ g'.Versions, v.Value = v'.Value → v.Weight = v'.Weight) := by
  have hw : ∀ g ∈ gs.Weighten.Groups, ∀ v ∈ g.Versions,
      v.Weight = occurrences gs.Groups v.Value ∧ 1 ≤ v.Weight := by
    intro g hg v hv
    rw [weighten_groups] at hg
    obtain ⟨g0, hg0, rfl⟩ := List.mem_map.1 hg
    rw [weightenGroup_versions] at hv
    obtain ⟨v0, hv0, rfl⟩ := List.mem_map.1 hv
    refine ⟨countWeights_eq gs.Groups v0.Value, ?_⟩
    show 1 ≤ countWeights gs.Groups v0.Value
    rw [countWeights_eq]
    unfold occurrences
    have hpos : 0 < (gs.Groups.flatMap (fun g => g.Versions)).countP
        (fun v => decide (v.Value = v0.Value)) := by
      rw [List.countP_pos_iff]
      exact ⟨v0, List.mem_flatMap.2 ⟨g0, hg0, hv0⟩, by simp⟩
    exact_mod_cast hpos
  refine ⟨?_, hw, ?_⟩
  · rw [weighten_groups, List.map_map]
    apply List.map_congr_left
    intro g _
    simp [weightenGroup_versions]
  · intro g hg v hv g' hg' v' hv' hval
    rw [(hw g hg v hv).1, (hw g' hg' v' hv').1, hval]

/-- C2, as stated, fails on `emptyValueGroups`: in its first group the empty value is counted
twice and `"a"` once, yet `Weighten` prefers `"a"` with weight `1` there, which is not the
earliest version of the largest count.  A running preferred version with an empty value counts
as unset and is replaced whatever its weight. -/
theorem weighten_preferred_counterexample :
    emptyValueGroups.Weighten.Groups.map (fun g => g.PreferredVersion) =
        [{ Value := "a", Weight := 1, Prerelease := false },
         { Value := "", Weight := 2, Prerelease := false }] ∧
      emptyValueGroups.Groups.map (fun g => g.Versions.map (fun v => v.Value)) =
        [["", "a"], [""]] ∧
      occurrences emptyValueGroups.Groups "" = 2 ∧
      occurrences emptyValueGroups.Groups "a" = 1 ∧
      ¬ IsEarliestMax (occurrences emptyValueGroups.Groups)
        [{ Value := "", Weight := 0, Prerelease := false },
         { Value := "a", Weight := 0, Prerelease := false }]
        { Value := "a", Weight := 1, Prerelease := false } := by
  have h2 : occurrences emptyValueGroups.Groups "" = 2 := by decide
  have h1 : occurrences emptyValueGroups.Groups "a" = 1 := by decide
  refine ⟨by decide, by decide, h2, h1, ?_⟩
  rintro ⟨pre, v, post, hl, hval, -, hpre, -⟩
  cases pre with
  | nil =>
    simp only [List.nil_append, List.cons.injEq] at hl
    rw [← hl.1] at hval
    exact absurd hval (by decide)
  | cons x pre =>
    simp only [List.cons_append, List.cons.injEq] at hl
    have hx := hpre x (List.mem_cons_self _ _)
    cases pre with
    | nil =>
      simp only [List.nil_append, List.cons.injEq] at hl
      rw [← hl.1, ← hl.2.1, h2, h1] at hx
      exact absurd hx (by decide)
    | cons y pre =>
      simp only [List.cons_append, List.cons.injEq] at hl
      have := hl.2.2
      cases pre <;> simp at this

/-- C2, amended.  For a group of the input that has a version and whose versions all have a
non-empty value, the group at the same place after `Weighten` prefers the earliest of its
versions whose count over all groups is the largest among the versions of the group, with that
count as weight: every earlier version has a strictly smaller count, every later one a count
that is not larger. -/
theorem weighten_preferred_earliest_max (gs : Groups) (i : Nat) (g : Group)
    (hg : gs.Groups[i]? = some g) (hne : g.Versions ≠ [])
    (hval : ∀ v ∈ g.Versions, v.Value ≠ "") :
    ∃ g', gs.Weighten.Groups[i]? = some g' ∧
      IsEarliestMax (occurrences gs.Groups) g.Versions g'.PreferredVersion := by
  refine ⟨weightenGroup (countWeights gs.Groups) g, ?_, ?_⟩
  · rw [weighten_groups, List.getElem?_map, hg]
    rfl
  · rw [weightenGroup_preferred _ _ hne]
    have hfun : countWeights gs.Groups = occurrences gs.Groups := by
      funext s; exact countWeights_eq gs.Groups s
    rw [hfun]
    exact foldl_pickPreferred_zero _ _ hne hval

/-- The amended C2 at the first group of `threeAndOne`. -/
theorem weighten_preferred_earliest_max_witness :
    ∃ g', threeAndOne.Weighten.Groups[0]? = some g' ∧
      IsEarliestMax (occurrences threeAndOne.Groups)
        [{ Value := "3", Weight := 0, Prerelease := false },
         { Value := "1.0", Weight := 0, Prerelease := false }] g'.PreferredVersion :=
  weighten_preferred_earliest_max threeAndOne 0
    { Versions := [{ Value := "3", Weight := 0, Prerelease := false },
                   { Value := "1.0", Weight := 0, Prerelease := false }],
      PreferredVersion := { Value := "3", Weight := 0, Prerelease := false }, Urls := ["u1"] }
    rfl (by decide) (by decide)

/-! ## GroupVersions: the claims -/

/-- C3.  When every group has a set preferred version, a version and a url, `GroupVersions`
completes and yields one group per distinct preferred value, in the order in which the values
are first met; the group of a value holds one version of that value, and its urls are the
first urls of the input groups preferring that value, in the order of the input. -/
theorem groupVersions_merges_by_preferred (gs : Groups)
    (h : ∀ g ∈ gs.Groups, g.PreferredVersion.Value ≠ "" ∧ g.Versions ≠ [] ∧ g.Urls ≠ []) :
    ∃ r, gs.GroupVersions = some r ∧
      r.Groups.map (fun g => (g.Versions.map (fun v => v.Value), g.Urls)) =
        (firstSeen (gs.Groups.map (fun g => g.PreferredVersion.Value))).map (fun k =>
          ([k], (gs.Groups.filter (fun g => g.PreferredVersion.Value = k)).filterMap
            (fun g => g.Urls.head?))) := by
  obtain ⟨st, hst⟩ := foldlM_groupVersionsStep_isSome gs.Groups GVState.init
    (fun g hg => ⟨(h g hg).2.1, (h g hg).2.2⟩)
  obtain ⟨-, hkeys, -, hurls, hvers⟩ := GVInv_foldlM gs.Groups st hst
  have hkey : ∀ g ∈ gs.Groups, groupKey g = g.PreferredVersion.Value := by
    intro g hg
    unfold groupKey
    rw [if_pos (h g hg).1]
  have hmap : gs.Groups.map groupKey = gs.Groups.map (fun g => g.PreferredVersion.Value) :=
    List.map_congr_left hkey
  have hall : (gs.Groups.map (fun g => g.PreferredVersion.Value)).filter (fun k => k ≠ "") =
      gs.Groups.map (fun g => g.PreferredVersion.Value) := by
    rw [List.filter_eq_self]
    intro k hk
    obtain ⟨g, hg, rfl⟩ := List.mem_map.1 hk
    simpa using (h g hg).1
  rw [hmap, hall] at hkeys
  have hr : gs.GroupVersions = some (st.keys.foldl (groupVersionsEmit st) NewGroups) := by
    unfold Groups.GroupVersions
    rw [hst]
    rfl
  refine ⟨_, hr, ?_⟩
  rw [foldl_groupVersionsEmit, List.map_append, List.map_map, ← hkeys]
  simp only [NewGroups, List.map_nil, List.nil_append]
  apply List.map_congr_left
  intro k hk
  have hkne : k ≠ "" := by
    rw [hkeys] at hk
    obtain ⟨g, hg, rfl⟩ := List.mem_map.1 ((mem_firstSeen _ _).1 hk)
    exact (h g hg).1
  obtain ⟨g, hg, hgk, hv⟩ := hvers k hk
  have hval : (st.versions k).Value = k := by
    rw [hv, ← hkey g hg, hgk]
  have hfil : gs.Groups.filter (fun g => decide (groupKey g = k)) =
      gs.Groups.filter (fun g => decide (g.PreferredVersion.Value = k)) := by
    apply List.filter_congr
    intro g' hg'
    rw [hkey g' hg']
  simp only [Function.comp, List.map_cons, List.map_nil, hval, hurls k hkne, firstUrls, hfil]

/-- C3 on `twoPreferring`: one group results, with the urls `u1` and `u2`. -/
theorem groupVersions_merges_by_preferred_witness :
    ∃ r, twoPreferring.GroupVersions = some r ∧
      r.Groups.map (fun g => (g.Versions.map (fun v => v.Value), g.Urls)) =
        (firstSeen (twoPreferring.Groups.map (fun g => g.PreferredVersion.Value))).map (fun k =>
          ([k], (twoPreferring.Groups.filter (fun g => g.PreferredVersion.Value = k)).filterMap
            (fun g => g.Urls.head?))) :=
  groupVersions_merges_by_preferred twoPreferring (by decide)

/-- C4 at `unsetPreferred`.  The keys of the two groups are `"1.0"` and `"2.0"`, the values of
their first versions, but `GroupVersions` files the unset preferred version under each key: both
resulting groups hold one version whose value is empty. -/
theorem groupVersions_unset_preferred_empty_value :
    unsetPreferred.GroupVersions = some
      { Groups := [
          { Versions := [{ Value := "", Weight := 0, Prerelease := false }],
            PreferredVersion := { Value := "", Weight := 0, Prerelease := false },
            Urls := ["u1"] },
          { Versions := [{ Value := "", Weight := 0, Prerelease := false }],
            PreferredVersion := { Value := "", Weight := 0, Prerelease := false },
            Urls := ["u2"] }] } ∧
      unsetPreferred.Groups.map groupKey = ["1.0", "2.0"] := by
  decide

/-- C5 at `noVersions`: `GroupVersions` does not skip the group, it panics on `Versions[0]`.
It panics as well on a group that has a version and no url. -/
theorem groupVersions_panics_without_versions :
    noVersions.GroupVersions = none ∧
      Groups.GroupVersions { Groups := [
        { Versions := [{ Value := "1.0", Weight := 0, Prerelease := false }],
          PreferredVersion := { Value := "1.0", Weight := 0, Prerelease := false },
          Urls := [] }] } = none := by
  decide

/-! ## CleanByWeights: the claims -/

/-- C6.  `CleanByWeights` panics, on the division by the number of groups, exactly when there
is no group; with a group it completes. -/
theorem cleanByWeights_fails_iff_empty (gs : Groups) :
    (gs.CleanByWeights = none ↔ gs.Groups = []) ∧
      (gs.CleanByWeights.isSome = true ↔ gs.Groups ≠ []) := by
  have h1 := cleanByWeights_none_iff gs
  refine ⟨h1, ?_⟩
  rw [← not_iff_not, Bool.not_eq_true, Option.not_isSome, Option.isNone_iff_eq_none, not_not]
  exact h1

/-- C7.  On a `Groups` with a group, `CleanByWeights` keeps, in their order and as they are,
exactly the groups whose preferred weight is at least the average or that have a url; the
average is the truncating quotient of the sum of the preferred weights, as a 64-bit integer
holds it, by the number of groups. -/
theorem cleanByWeights_keeps_exactly (gs : Groups) (hne : gs.Groups ≠ []) :
    gs.CleanByWeights = some { Groups := gs.Groups.filter (fun g =>
      decide (g.PreferredVersion.Weight ≥
        Int.tdiv (wrapInt64 ((gs.Groups.map (fun g => g.PreferredVersion.Weight)).sum))
          gs.Groups.length ∨ g.Urls.length > 0)) } := by
  rw [cleanByWeights_eq gs hne]
  congr 2
  apply List.filter_congr
  intro g _
  simp [averageWeight, List.length_pos]

/-- C7 on `mixedWeights`, where the average is `2`. -/
theorem cleanByWeights_keeps_exactly_witness :
    mixedWeights.CleanByWeights = some { Groups := mixedWeights.Groups.filter (fun g =>
      decide (g.PreferredVersion.Weight ≥
        Int.tdiv (wrapInt64 ((mixedWeights.Groups.map (fun g => g.PreferredVersion.Weight)).sum))
          mixedWeights.Groups.length ∨ g.Urls.length > 0)) } :=
  cleanByWeights_keeps_exactly mixedWeights (by decide)

/-- C8 at `mixedWeights`.  The average weight is `2`; the last group has the weight `0` and a
url, and `CleanByWeights` keeps it: only the first group, of weight `1` and without a url, is
dropped. -/
theorem cleanByWeights_keeps_light_group_with_url :
    averageWeight mixedWeights.Groups = 2 ∧
      (mixedWeights.CleanByWeights.map
        (fun r => r.Groups.map (fun g => (g.PreferredVersion.Weight, g.Urls)))) =
        some [(5, []), (3, []), (0, ["u4"])] := by
  decide

/-- C9.  When `GroupVersions` completes with a group in its result, every resulting group has a
url, and a `CleanByWeights` that follows returns the result as it is. -/
theorem groupVersions_then_cleanByWeights (gs r : Groups) (h : gs.GroupVersions = some r)
    (hne : r.Groups ≠ []) :
    (∀ g ∈ r.Groups, g.Urls ≠ []) ∧ r.CleanByWeights = some r := by
  obtain ⟨st, hst, hr⟩ := groupVersions_eq gs r h
  obtain ⟨hgood, hkeys, -, hurls, -⟩ := GVInv_foldlM gs.Groups st hst
  have hurl : ∀ g ∈ r.Groups, g.Urls ≠ [] := by
    intro g hg
    rw [hr] at hg
    obtain ⟨k, hk, rfl⟩ := List.mem_map.1 hg
    show st.urls k ≠ []
    rw [hkeys] at hk
    have hk' := (mem_firstSeen _ _).1 hk
    obtain ⟨hk1, hk2⟩ := List.mem_filter.1 hk'
    have hkne : k ≠ "" := by simpa using hk2
    obtain ⟨g0, hg0, hg0k⟩ := List.mem_map.1 hk1
    rw [hurls k hkne]
    unfold firstUrls
    obtain ⟨u, us, hU⟩ := List.exists_cons_of_ne_nil (hgood g0 hg0).2
    intro hnil
    have hmem : u ∈ (gs.Groups.filter (fun g => decide (groupKey g = k))).filterMap
        (fun g => g.Urls.head?) := by
      rw [List.mem_filterMap]
      exact ⟨g0, List.mem_filter.2 ⟨hg0, by simpa using hg0k⟩, by rw [hU]; rfl⟩
    rw [hnil] at hmem
    exact absurd hmem (List.not_mem_nil _)
  refine ⟨hurl, ?_⟩
  rw [cleanByWeights_eq r hne]
  congr 1
  have hfil : r.Groups.filter (fun g =>
      decide (averageWeight r.Groups ≤ g.PreferredVersion.Weight ∨ g.Urls ≠ [])) = r.Groups := by
    rw [List.filter_eq_self]
    intro g hg
    exact decide_eq_true (Or.inr (hurl g hg))
  rw [hfil]

/-- C9 on `threeAndOne` after `Weighten`. -/
theorem groupVersions_then_cleanByWeights_witness :
    (∀ g ∈ ({ Groups := [
        { Versions := [{ Value := "1.0", Weight := 3, Prerelease := false }],
          PreferredVersion := { Value := "1.0", Weight := 3, Prerelease := false },
          Urls := ["u1", "u2", "u3"] },
        { Versions := [{ Value := "2.0", Weight := 1, Prerelease := false }],
          PreferredVersion := { Value := "2.0", Weight := 1, Prerelease := false },
          Urls := ["u4"] }] } : Groups).Groups, g.Urls ≠ []) ∧
      Groups.CleanByWeights { Groups := [
        { Versions := [{ Value := "1.0", Weight := 3, Prerelease := false }],
          PreferredVersion := { Value := "1.0", Weight := 3, Prerelease := false },
          Urls := ["u1", "u2", "u3"] },
        { Versions := [{ Value := "2.0", Weight := 1, Prerelease := false }],
          PreferredVersion := { Value := "2.0", Weight := 1, Prerelease := false },
          Urls := ["u4"] }] } = some { Groups := [
        { Versions := [{ Value := "1.0", Weight := 3, Prerelease := false }],
          PreferredVersion := { Value := "1.0", Weight := 3, Prerelease := false },
          Urls := ["u1", "u2", "u3"] },
        { Versions := [{ Value := "2.0", Weight := 1, Prerelease := false }],
          PreferredVersion := { Value := "2.0", Weight := 1, Prerelease := false },
          Urls := ["u4"] }] } :=
  groupVersions_then_cleanByWeights threeAndOne.Weighten _ (by decide) (by decide)

/-! ## Interpolation: the claims -/

/-- C10 at the version `1.0` and the template `#{version}-#{version.bogus}`.  The bare marker
is replaced first; the method `bogus` of the second interpolation is unknown, and what
`InterpolateIntoString` returns then is the text with the first replacement made, not the
template. -/
theorem interpolate_unknown_method_keeps_replacement :
    (NewVersion "1.0").InterpolateIntoString "#\x7bversion\x7d-#\x7bversion.bogus\x7d" =
        .ok "1.0-#\x7bversion.bogus\x7d" ∧
      (NewVersion "1.0").InterpolateIntoString "#\x7bversion\x7d-#\x7bversion.bogus\x7d" ≠
        .ok "#\x7bversion\x7d-#\x7bversion.bogus\x7d" := by
  decide

/-! ## Lemmas on the regular expressions -/

theorem run_cat (total : Nat) (a b : Re) (s : MState) :
    (Re.cat a b).run total s = (a.run total s).flatMap (fun t => b.run total t) := by
  rw [Re.run]

theorem run_alt (total : Nat) (a b : Re) (s : MState) :
    (Re.alt a b).run total s = a.run total s ++ b.run total s := by
  rw [Re.run]

theorem run_plus (total : Nat) (a : Re) (s : MState) :
    (Re.plus a).run total s =
      (a.run total s).flatMap (fun t => starLoop (fun u => a.run total u) t.rest.length t) := by
  rw [Re.run]

theorem run_star (total : Nat) (a : Re) (s : MState) :
    (Re.star a).run total s = starLoop (fun t => a.run total t) s.rest.length s := by
  rw [Re.run]

theorem run_cap (total : Nat) (n : Nat) (a : Re) (s : MState) :
    (Re.cap n a).run total s = (a.run total s).map (fun t =>
      { t with caps := (n, s.rest.take (s.rest.length - t.rest.length)) :: t.caps }) := by
  rw [Re.run]

theorem run_set_cons (total : Nat) (p : Char → Bool) (c : Char) (cs : List Char)
    (caps : List (Nat × List Char)) :
    (Re.set p).run total { rest := c :: cs, caps := caps } =
      if p c = true then [{ rest := cs, caps := caps }] else [] := by
  rw [Re.run]

theorem run_set_nil (total : Nat) (p : Char → Bool) (caps : List (Nat × List Char)) :
    (Re.set p).run total { rest := [], caps := caps } = [] := by
  rw [Re.run]

theorem run_bot (total : Nat) (s : MState) :
    Re.bot.run total s = if s.rest.length = total then [s] else [] := by
  rw [Re.run]

theorem run_eot (total : Nat) (s : MState) :
    Re.eot.run total s = if s.rest.length = 0 then [s] else [] := by
  rw [Re.run]

theorem starLoop_set (p : Char → Bool) (total : Nat) (caps : List (Nat × List Char)) :
    ∀ (n : Nat) (l : List Char), l.length ≤ n →
      starLoop (fun t => (Re.set p).run total t) n { rest := l, caps := caps } =
        (dropsDown p l).map (fun r => { rest := r, caps := caps }) := by
  intro n
  induction n with
  | zero =>
    intro l hl
    have : l = [] := List.length_eq_zero.1 (Nat.le_zero.1 hl)
    subst this
    simp [starLoop, dropsDown]
  | succ n ih =>
    intro l hl
    cases l with
    | nil => simp [starLoop, dropsDown, Re.run]
    | cons c cs =>
      have hcs : cs.length ≤ n := by simpa using hl
      have hf : (Re.set p).run total { rest := c :: cs, caps := caps } =
          if p c = true then [{ rest := cs, caps := caps }] else [] := by
        simp [Re.run]
      show ((Re.run total (Re.set p) { rest := c :: cs, caps := caps }).filter _).flatMap
        (starLoop _ n) ++ [_] = _
      rw [hf]
      by_cases hp : p c = true
      · simp [dropsDown, hp, ih cs hcs]
      · simp [dropsDown, hp]

theorem run_star_set (p : Char → Bool) (total : Nat) (s : MState) :
    (Re.star (.set p)).run total s = (dropsDown p s.rest).map (fun r => { rest := r, caps := s.caps }) := by
  simp only [Re.run]
  exact starLoop_set p total s.caps _ s.rest (le_refl _)

theorem mem_dropsDown (p : Char → Bool) (l r : List Char) :
    r ∈ dropsDown p l ↔ ∃ pre, l = pre ++ r ∧ ∀ c ∈ pre, p c = true := by
  induction l with
  | nil =>
    simp only [dropsDown, List.mem_singleton]
    constructor
    · rintro rfl; exact ⟨[], rfl, by simp⟩
    · rintro ⟨pre, h, -⟩
      have := List.append_eq_nil.1 h.symm
      exact this.2
  | cons c cs ih =>
    by_cases hp : p c = true
    · simp only [dropsDown, hp, if_true, List.mem_append, List.mem_singleton, ih]
      constructor
      · rintro (⟨pre, h, hall⟩ | rfl)
        · refine ⟨c :: pre, by simp [h], ?_⟩
          intro x hx
          rcases List.mem_cons.1 hx with rfl | hx
          · exact hp
          · exact hall x hx
        · exact ⟨[], rfl, by simp⟩
      · rintro ⟨pre, h, hall⟩
        cases pre with
        | nil => right; simpa using h.symm
        | cons x pre =>
          left
          simp only [List.cons_append, List.cons.injEq] at h
          exact ⟨pre, h.2, fun y hy => hall y (List.mem_cons_of_mem _ hy)⟩
    · simp only [dropsDown, hp, Bool.false_eq_true, if_false, List.mem_singleton]
      constructor
      · rintro rfl; exact ⟨[], rfl, by simp⟩
      · rintro ⟨pre, h, hall⟩
        cases pre with
        | nil => simpa using h.symm
        | cons x pre =>
          simp only [List.cons_append, List.cons.injEq] at h
          have := hall x (List.mem_cons_self _ _)
          rw [← h.1] at this
          exact absurd this hp

theorem find_eq_none_iff (r : Re) (total : Nat) (l : List Char) :
    r.find total l = none ↔ ∀ s, s <:+ l → r.run total { rest := s, caps := [] } = [] := by
  induction l with
  | nil =>
    unfold Re.find
    constructor
    · intro h s hs
      have : s = [] := List.eq_nil_of_suffix_nil hs
      subst this
      cases hr : Re.run total r { rest := [], caps := [] } with
      | nil => rfl
      | cons t ts => rw [hr] at h; simp at h
    · intro h
      rw [h [] (List.suffix_refl _)]
  | cons c cs ih =>
    unfold Re.find
    constructor
    · intro h s hs
      cases hr : Re.run total r { rest := c :: cs, caps := [] } with
      | nil =>
        rw [hr] at h
        simp only at h
        rcases List.suffix_cons_iff.1 hs with rfl | hs'
        · exact hr
        · exact (ih.1 h) s hs'
      | cons t ts => rw [hr] at h; simp at h
    · intro h
      rw [h (c :: cs) (List.suffix_refl _)]
      simp only
      exact ih.2 (fun s hs => h s (List.suffix_cons_iff.2 (Or.inr hs)))

theorem dropsDown_stop (p : Char → Bool) (r : List Char)
    (hr : ∀ c, r.head? = some c → p c = false) : dropsDown p r = [r] := by
  cases r with
  | nil => rfl
  | cons c cs => simp [dropsDown, hr c rfl]

theorem dropsDown_append (p : Char → Bool) (xs r : List Char) (hxs : ∀ c ∈ xs, p c = true)
    (hr : ∀ c, r.head? = some c → p c = false) :
    ∃ tl, dropsDown p (xs ++ r) = r :: tl := by
  induction xs with
  | nil => exact ⟨[], by simpa using dropsDown_stop p r hr⟩
  | cons x xs ih =>
    obtain ⟨tl, htl⟩ := ih (fun c hc => hxs c (List.mem_cons_of_mem _ hc))
    refine ⟨tl ++ [x :: (xs ++ r)], ?_⟩
    simp [dropsDown, hxs x (List.mem_cons_self _ _), htl]

theorem run_plus_set (p : Char → Bool) (total : Nat) (s : MState) :
    (Re.plus (.set p)).run total s =
      match s.rest with
      | [] => []
      | c :: cs =>
        if p c = true then (dropsDown p cs).map (fun r => { rest := r, caps := s.caps }) else [] := by
  have hstar := fun cs => starLoop_set p total s.caps (List.length cs) cs (le_refl _)
  cases hs : s.rest with
  | nil => simp [Re.run, hs]
  | cons c cs =>
    by_cases hp : p c = true
    · simp only [Re.run, hs, hp, if_true, List.flatMap_singleton]
      exact hstar cs
    · simp [Re.run, hs, hp]

theorem run_plus_set_head (p : Char → Bool) (total : Nat) (caps : List (Nat × List Char))
    (xs r : List Char) (hne : xs ≠ []) (hxs : ∀ c ∈ xs, p c = true)
    (hr : ∀ c, r.head? = some c → p c = false) :
    ∃ tl, (Re.plus (.set p)).run total { rest := xs ++ r, caps := caps } =
      { rest := r, caps := caps } :: tl := by
  rw [run_plus_set]
  cases xs with
  | nil => exact absurd rfl hne
  | cons x xs =>
    obtain ⟨tl, htl⟩ := dropsDown_append p xs r (fun c hc => hxs c (List.mem_cons_of_mem _ hc)) hr
    simp only [List.cons_append, hxs x (List.mem_cons_self _ _), if_true, htl, List.map_cons]
    exact ⟨_, rfl⟩

theorem run_plus_set_nil (p : Char → Bool) (total : Nat) (s : MState)
    (hr : ∀ c, s.rest.head? = some c → p c = false) :
    (Re.plus (.set p)).run total s = [] := by
  rw [run_plus_set]
  cases hs : s.rest with
  | nil => rfl
  | cons c cs =>
    have := hr c (by rw [hs]; rfl)
    simp [this]

theorem flatMap_head {α β : Type} (l : List α) (f : α → List β) (x : α) (xs : List α) (y : β)
    (ys : List β) (hl : l = x :: xs) (hf : f x = y :: ys) : ∃ tl, l.flatMap f = y :: tl := by
  subst hl
  exact ⟨ys ++ xs.flatMap f, by simp [hf]⟩

theorem starLoop_head (f : MState → List MState) (n : Nat) (s x y : MState) (xs ys : List MState)
    (hf : f s = x :: xs) (hx : x.rest.length < s.rest.length)
    (hrec : starLoop f n x = y :: ys) : ∃ tl, starLoop f (n + 1) s = y :: tl := by
  unfold starLoop
  rw [hf]
  simp only [List.filter_cons, hx, decide_True, if_true, List.flatMap_cons, hrec,
    List.cons_append]
  exact ⟨_, rfl⟩

theorem starLoop_stop (f : MState → List MState) (n : Nat) (s : MState) (hf : f s = []) :
    starLoop f n s = [s] := by
  cases n with
  | zero => rfl
  | succ n => simp [starLoop, hf]

/-! ## Lemmas on the derivations -/

theorem allMatches_first (r : Re) (total fuel : Nat) (pos : List Char) :
    (r.allMatches total (fuel + 1) (some pos) none).head? = r.find total pos := by
  unfold Re.allMatches
  cases hf : r.find total pos with
  | none => simp
  | some h =>
    simp only
    split <;> simp

theorem index_zero_eq {α : Type} (l : List α) :
    index l 0 = match l.head? with
      | some a => .ok a
      | none => .panic := by
  cases l <;> simp [index]

theorem index_findAllString (r : Re) (s : String) :
    index (r.FindAllString s) 0 =
      match r.find s.length s.data with
      | some h => .ok (String.mk h.text)
      | none => .panic := by
  rw [index_zero_eq]
  unfold Re.FindAllString
  rw [List.head?_map, allMatches_first]
  cases r.find s.length s.data <;> rfl

theorem index_findAllStringSubmatch (r : Re) (s : String) :
    index (r.FindAllStringSubmatch s) 0 =
      match r.find s.length s.data with
      | some h => .ok (h.submatches r)
      | none => .panic := by
  rw [index_zero_eq]
  unfold Re.FindAllStringSubmatch
  rw [List.head?_map, allMatches_first]
  cases r.find s.length s.data <;> rfl

theorem find_anchored_lt (r : Re) (hr : Anchored r) (total : Nat) (l : List Char)
    (h : l.length < total) : r.find total l = none := by
  induction l with
  | nil =>
    unfold Re.find
    rw [hr total _ (by simpa using ne_of_lt h)]
  | cons c cs ih =>
    unfold Re.find
    rw [hr total _ (by simpa using ne_of_lt h)]
    exact ih (by simp at h; omega)

theorem find_anchored (r : Re) (hr : Anchored r) (l : List Char) :
    r.find l.length l =
      match r.run l.length { rest := l, caps := [] } with
      | [] => none
      | t :: _ => some { start := l, stop := t.rest, caps := t.caps } := by
  cases l with
  | nil => unfold Re.find; rfl
  | cons c cs =>
    unfold Re.find
    cases h : Re.run (c :: cs).length r { rest := c :: cs, caps := [] } with
    | nil => simp only; exact find_anchored_lt r hr _ cs (by simp)
    | cons t ts => rfl

theorem anchored_cat_bot (r : Re) : Anchored (.cat .bot r) := by
  intro total s h
  simp [Re.run, h]

theorem major_eq (v : Version) : v.Major = majorOf v.Value.data := by
  unfold Version.Major
  rw [index_findAllString]
  have hlen : v.Value.length = v.Value.data.length := rfl
  rw [hlen, find_anchored regexMajor (anchored_cat_bot _)]
  rcases v.Value.data with _ | ⟨a, rest⟩
  · simp [regexMajor, Re.run, Re.digit, majorOf]
  · by_cases ha : a.isDigit = true <;>
      simp [regexMajor, Re.run, Re.digit, majorOf, Hit.text, ha]

theorem minor_eq (v : Version) : v.Minor = minorOf v.Value.data := by
  unfold Version.Minor
  rw [index_findAllStringSubmatch]
  have hlen : v.Value.length = v.Value.data.length := rfl
  rw [hlen, find_anchored regexMinor (anchored_cat_bot _)]
  rcases v.Value.data with _ | ⟨a, _ | ⟨b, _ | ⟨c, rest⟩⟩⟩
  · simp [regexMinor, Re.run, Re.digit, Re.lit, minorOf, Res.bind]
  · by_cases ha : a.isDigit = true
    swap
    · simp [regexMinor, Re.run, Re.digit, Re.lit, minorOf, Res.bind, ha]
    simp [regexMinor, Re.run, Re.digit, Re.lit, minorOf, Res.bind, ha]
  · by_cases ha : a.isDigit = true
    swap
    · simp [regexMinor, Re.run, Re.digit, Re.lit, minorOf, Res.bind, ha]
    by_cases hb : b = '.'
    swap
    · simp [regexMinor, Re.run, Re.digit, Re.lit, minorOf, Res.bind, ha, hb]
    simp [regexMinor, Re.run, Re.digit, Re.lit, minorOf, Res.bind, ha, hb]
  · by_cases ha : a.isDigit = true
    swap
    · simp [regexMinor, Re.run, Re.digit, Re.lit, minorOf, Res.bind, ha]
    by_cases hb : b = '.'
    swap
    · simp [regexMinor, Re.run, Re.digit, Re.lit, minorOf, Res.bind, ha, hb]
    by_cases hc : c.isDigit = true
    swap
    · simp [regexMinor, Re.run, Re.digit, Re.lit, minorOf, Res.bind, ha, hb, hc]
    have hn : rest.length + 1 + 1 + 1 - rest.length = 3 := by omega
    simp [regexMinor, Re.run, Re.digit, Re.lit, minorOf, Res.bind, Hit.submatches, Hit.group, Hit.text, Re.numCap, index, List.range_succ, ha, hb, hc, hn]

theorem patch_eq (v : Version) : v.Patch = patchOf v.Value.data := by
  unfold Version.Patch
  rw [index_findAllStringSubmatch]
  have hlen : v.Value.length = v.Value.data.length := rfl
  rw [hlen, find_anchored regexPatch (anchored_cat_bot _)]
  rcases v.Value.data with _ | ⟨a, _ | ⟨b, _ | ⟨c, _ | ⟨d, _ | ⟨e, rest⟩⟩⟩⟩⟩
  · simp [regexPatch, Re.run, Re.digit, Re.lit, patchOf, Res.bind]
  · by_cases ha : a.isDigit = true
    swap
    · simp [regexPatch, Re.run, Re.digit, Re.lit, patchOf, Res.bind, ha]
    simp [regexPatch, Re.run, Re.digit, Re.lit, patchOf, Res.bind, ha]
  · by_cases ha : a.isDigit = true
    swap
    · simp [regexPatch, Re.run, Re.digit, Re.lit, patchOf, Res.bind, ha]
    by_cases hb : b = '.'
    swap
    · simp [regexPatch, Re.run, Re.digit, Re.lit, patchOf, Res.bind, ha, hb]
    simp [regexPatch, Re.run, Re.digit, Re.lit, patchOf, Res.bind, ha, hb]
  · by_cases ha : a.isDigit = true
    swap
    · simp [regexPatch, Re.run, Re.digit, Re.lit, patchOf, Res.bind, ha]
    by_cases hb : b = '.'
    swap
    · simp [regexPatch, Re.run, Re.digit, Re.lit, patchOf, Res.bind, ha, hb]
    by_cases hc : c.isDigit = true
    swap
    · simp [regexPatch, Re.run, Re.digit, Re.lit, patchOf, Res.bind, ha, hb, hc]
    simp [regexPatch, Re.run, Re.digit, Re.lit, patchOf, Res.bind, ha, hb, hc]
  · by_cases ha : a.isDigit = true
    swap
    · simp [regexPatch, Re.run, Re.digit, Re.lit, patchOf, Res.bind, ha]
    by_cases hb : b = '.'
    swap
    · simp [regexPatch, Re.run, Re.digit, Re.lit, patchOf, Res.bind, ha, hb]
    by_cases hc : c.isDigit = true
    swap
    · simp [regexPatch, Re.run, Re.digit, Re.lit, patchOf, Res.bind, ha, hb, hc]
    by_cases hd : d = '.'
    swap
    · simp [regexPatch, Re.run, Re.digit, Re.lit, patchOf, Res.bind, ha, hb, hc, hd]
    simp [regexPatch, Re.run, Re.digit, Re.lit, patchOf, Res.bind, ha, hb, hc, hd]
  · by_cases ha : a.isDigit = true
    swap
    · simp [regexPatch, Re.run, Re.digit, Re.lit, patchOf, Res.bind, ha]
    by_cases hb : b = '.'
    swap
    · simp [regexPatch, Re.run, Re.digit, Re.lit, patchOf, Res.bind, ha, hb]
    by_cases hc : c.isDigit = true
    swap
    · simp [regexPatch, Re.run, Re.digit, Re.lit, patchOf, Res.bind, ha, hb, hc]
    by_cases hd : d = '.'
    swap
    · simp [regexPatch, Re.run, Re.digit, Re.lit, patchOf, Res.bind, ha, hb, hc, hd]
    by_cases he : e.isDigit = true
    swap
    · simp [regexPatch, Re.run, Re.digit, Re.lit, patchOf, Res.bind, ha, hb, hc, hd, he]
    have hn : rest.length + 1 + 1 + 1 + 1 + 1 - rest.length = 5 := by omega
    simp [regexPatch, Re.run, Re.digit, Re.lit, patchOf, Res.bind, Hit.submatches, Hit.group, Hit.text, Re.numCap, index, List.range_succ, ha, hb, hc, hd, he, hn]

theorem majorMinor_eq (v : Version) : v.MajorMinor = majorMinorOf v.Value.data := by
  unfold Version.MajorMinor
  rw [index_findAllString]
  have hlen : v.Value.length = v.Value.data.length := rfl
  rw [hlen, find_anchored regexMajorMinor (anchored_cat_bot _)]
  rcases v.Value.data with _ | ⟨a, _ | ⟨b, _ | ⟨c, rest⟩⟩⟩
  · simp [regexMajorMinor, Re.run, Re.digit, Re.lit, majorMinorOf, Res.bind]
  · by_cases ha : a.isDigit = true
    swap
    · simp [regexMajorMinor, Re.run, Re.digit, Re.lit, majorMinorOf, Res.bind, ha]
    simp [regexMajorMinor, Re.run, Re.digit, Re.lit, majorMinorOf, Res.bind, ha]
  · by_cases ha : a.isDigit = true
    swap
    · simp [regexMajorMinor, Re.run, Re.digit, Re.lit, majorMinorOf, Res.bind, ha]
    by_cases hb : b = '.'
    swap
    · simp [regexMajorMinor, Re.run, Re.digit, Re.lit, majorMinorOf, Res.bind, ha, hb]
    simp [regexMajorMinor, Re.run, Re.digit, Re.lit, majorMinorOf, Res.bind, ha, hb]
  · by_cases ha : a.isDigit = true
    swap
    · simp [regexMajorMinor, Re.run, Re.digit, Re.lit, majorMinorOf, Res.bind, ha]
    by_cases hb : b = '.'
    swap
    · simp [regexMajorMinor, Re.run, Re.digit, Re.lit, majorMinorOf, Res.bind, ha, hb]
    by_cases hc : c.isDigit = true
    swap
    · simp [regexMajorMinor, Re.run, Re.digit, Re.lit, majorMinorOf, Res.bind, ha, hb, hc]
    have hn : rest.length + 1 + 1 + 1 - rest.length = 3 := by omega
    simp [regexMajorMinor, Re.run, Re.digit, Re.lit, majorMinorOf, Res.bind, Hit.submatches, Hit.group, Hit.text, Re.numCap, index, List.range_succ, ha, hb, hc, hn]

theorem majorMinorPatch_eq (v : Version) : v.MajorMinorPatch = majorMinorPatchOf v.Value.data := by
  unfold Version.MajorMinorPatch
  rw [index_findAllString]
  have hlen : v.Value.length = v.Value.data.length := rfl
  rw [hlen, find_anchored regexMajorMinorPatch (anchored_cat_bot _)]
  rcases v.Value.data with _ | ⟨a, _ | ⟨b, _ | ⟨c, _ | ⟨d, _ | ⟨e, rest⟩⟩⟩⟩⟩
  · simp [regexMajorMinorPatch, Re.run, Re.digit, Re.lit, majorMinorPatchOf, Res.bind]
  · by_cases ha : a.isDigit = true
    swap
    · simp [regexMajorMinorPatch, Re.run, Re.digit, Re.lit, majorMinorPatchOf, Res.bind, ha]
    simp [regexMajorMinorPatch, Re.run, Re.digit, Re.lit, majorMinorPatchOf, Res.bind, ha]
  · by_cases ha : a.isDigit = true
    swap
    · simp [regexMajorMinorPatch, Re.run, Re.digit, Re.lit, majorMinorPatchOf, Res.bind, ha]
    by_cases hb : b = '.'
    swap
    · simp [regexMajorMinorPatch, Re.run, Re.digit, Re.lit, majorMinorPatchOf, Res.bind, ha, hb]
    simp [regexMajorMinorPatch, Re.run, Re.digit, Re.lit, majorMinorPatchOf, Res.bind, ha, hb]
  · by_cases ha : a.isDigit = true
    swap
    · simp [regexMajorMinorPatch, Re.run, Re.digit, Re.lit, majorMinorPatchOf, Res.bind, ha]
    by_cases hb : b = '.'
    swap
    · simp [regexMajorMinorPatch, Re.run, Re.digit, Re.lit, majorMinorPatchOf, Res.bind, ha, hb]
    by_cases hc : c.isDigit = true
    swap
    · simp [regexMajorMinorPatch, Re.run, Re.digit, Re.lit, majorMinorPatchOf, Res.bind, ha, hb, hc]
    simp [regexMajorMinorPatch, Re.run, Re.digit, Re.lit, majorMinorPatchOf, Res.bind, ha, hb, hc]
  · by_cases ha : a.isDigit = true
    swap
    · simp [regexMajorMinorPatch, Re.run, Re.digit, Re.lit, majorMinorPatchOf, Res.bind, ha]
    by_cases hb : b = '.'
    swap
    · simp [regexMajorMinorPatch, Re.run, Re.digit, Re.lit, majorMinorPatchOf, Res.bind, ha, hb]
    by_cases hc : c.isDigit = true
    swap
    · simp [regexMajorMinorPatch, Re.run, Re.digit, Re.lit, majorMinorPatchOf, Res.bind, ha, hb, hc]
    by_cases hd : d = '.'
    swap
    · simp [regexMajorMinorPatch, Re.run, Re.digit, Re.lit, majorMinorPatchOf, Res.bind, ha, hb, hc, hd]
    simp [regexMajorMinorPatch, Re.run, Re.digit, Re.lit, majorMinorPatchOf, Res.bind, ha, hb, hc, hd]
  · by_cases ha : a.isDigit = true
    swap
    · simp [regexMajorMinorPatch, Re.run, Re.digit, Re.lit, majorMinorPatchOf, Res.bind, ha]
    by_cases hb : b = '.'
    swap
    · simp [regexMajorMinorPatch, Re.run, Re.digit, Re.lit, majorMinorPatchOf, Res.bind, ha, hb]
    by_cases hc : c.isDigit = true
    swap
    · simp [regexMajorMinorPatch, Re.run, Re.digit, Re.lit, majorMinorPatchOf, Res.bind, ha, hb, hc]
    by_cases hd : d = '.'
    swap
    · simp [regexMajorMinorPatch, Re.run, Re.digit, Re.lit, majorMinorPatchOf, Res.bind, ha, hb, hc, hd]
    by_cases he : e.isDigit = true
    swap
    · simp [regexMajorMinorPatch, Re.run, Re.digit, Re.lit, majorMinorPatchOf, Res.bind, ha, hb, hc, hd, he]
    have hn : rest.length + 1 + 1 + 1 + 1 + 1 - rest.length = 5 := by omega
    simp [regexMajorMinorPatch, Re.run, Re.digit, Re.lit, majorMinorPatchOf, Res.bind, Hit.submatches, Hit.group, Hit.text, Re.numCap, index, List.range_succ, ha, hb, hc, hd, he, hn]

theorem anchored_regexBefore (sep : Char) : Anchored (regexBefore sep) := by
  intro total s h
  simp [regexBefore, Re.run, h]

theorem index_submatch_one (r : Re) (hcap : r.numCap = 1) (s : String) :
    (index (r.FindAllStringSubmatch s) 0).bind (fun m => index m 1) =
      match r.find s.length s.data with
      | some h => .ok (String.mk (h.group 1))
      | none => .panic := by
  rw [index_findAllStringSubmatch]
  cases r.find s.length s.data with
  | none => rfl
  | some h => simp [Res.bind, Hit.submatches, hcap, index, List.range_succ]

theorem run_regexBefore (sep : Char) (l : List Char) :
    (regexBefore sep).run l.length { rest := l, caps := [] } =
      (dropsDown (fun x => x != '\n') l).flatMap (fun r =>
        match r with
        | [] => []
        | c :: cs =>
          if c = sep then [{ rest := cs, caps := [(1, l.take (l.length - r.length))] }] else []) := by
  have hstar := run_star_set (fun x => x != '\n') l.length { rest := l, caps := [] }
  simp only [regexBefore, Re.run, Re.dot, Re.lit, if_true, List.flatMap_singleton] at hstar ⊢
  rw [hstar]
  simp only [List.map_map, List.flatMap_map]
  congr 1
  funext r
  cases r with
  | nil => simp
  | cons c cs => by_cases h : c = sep <;> simp [h]

theorem run_regexBefore_eq_nil_iff (sep : Char) (l : List Char) :
    (regexBefore sep).run l.length { rest := l, caps := [] } = [] ↔ ¬ HasSepBefore sep l := by
  rw [run_regexBefore, List.flatMap_eq_nil_iff]
  constructor
  · rintro h ⟨pre, post, hl, hpre⟩
    have hmem : sep :: post ∈ dropsDown (fun x => x != '\n') l := by
      rw [mem_dropsDown]
      refine ⟨pre, hl, ?_⟩
      intro c hc
      simp only [bne_iff_ne, ne_eq]
      rintro rfl
      exact hpre hc
    have := h _ hmem
    simp at this
  · intro h r hr
    cases r with
    | nil => rfl
    | cons c cs =>
      by_cases hc : c = sep
      · exfalso
        apply h
        obtain ⟨pre, hl, hall⟩ := (mem_dropsDown _ _ _).1 hr
        refine ⟨pre, cs, by rw [hl, hc], ?_⟩
        intro hmem
        have := hall _ hmem
        simp at this
      · simp [hc]

theorem before_eq (sep : Char) (s : String) :
    ((index ((regexBefore sep).FindAllStringSubmatch s) 0).bind (fun m => index m 1) = .panic ↔
        ¬ HasSepBefore sep s.data) ∧
      (HasSepBefore sep s.data →
        ∃ out, (index ((regexBefore sep).FindAllStringSubmatch s) 0).bind (fun m => index m 1) =
          .ok out) := by
  rw [index_submatch_one _ (by simp [regexBefore, Re.numCap, Re.lit, Re.dot])]
  have hlen : s.length = s.data.length := rfl
  rw [hlen, find_anchored _ (anchored_regexBefore sep)]
  have hiff := run_regexBefore_eq_nil_iff sep s.data
  cases hr : (regexBefore sep).run s.data.length { rest := s.data, caps := [] } with
  | nil =>
    rw [hr] at hiff
    have hno := hiff.1 rfl
    exact ⟨by simp [hno], fun h => absurd h hno⟩
  | cons t ts =>
    rw [hr] at hiff
    have hyes : HasSepBefore sep s.data := by
      by_contra hno
      have := hiff.2 hno
      simp at this
    exact ⟨by simp [hyes], fun _ => ⟨_, rfl⟩⟩

theorem run_regexAfter (sep : Char) (total : Nat) (l : List Char) :
    (regexAfter sep).run total { rest := l, caps := [] } ≠ [] ↔
      ∃ post, l = sep :: post ∧ '\n' ∉ post := by
  cases l with
  | nil => simp [regexAfter, Re.run, Re.lit]
  | cons c cs =>
    by_cases hc : c = sep
    swap
    · simp [regexAfter, Re.run, Re.lit, hc]
    subst hc
    have hstar := run_star_set (fun x => x != '\n') total { rest := cs, caps := [] }
    simp only [regexAfter, Re.run, Re.dot, Re.lit, beq_self_eq_true, if_true,
      List.flatMap_singleton] at hstar ⊢
    rw [hstar]
    simp only [ne_eq, List.map_eq_nil_iff, List.flatMap_eq_nil_iff, List.mem_map, not_forall,
      List.cons.injEq, true_and, exists_eq_left']
    constructor
    · rintro ⟨t, ⟨r, hr, rfl⟩, hne⟩
      obtain ⟨pre, hl, hall⟩ := (mem_dropsDown _ _ _).1 hr
      have hr0 : r = [] := by
        by_contra hr0
        apply hne
        have : r.length ≠ 0 := fun h => hr0 (List.length_eq_zero.1 h)
        simp [this]
      subst hr0
      rw [List.append_nil] at hl
      subst hl
      intro hmem
      have := hall _ hmem
      simp at this
    · intro hpost
      refine ⟨{ rest := [], caps := [] }, ⟨[], ?_, rfl⟩, by simp⟩
      rw [mem_dropsDown]
      refine ⟨cs, by simp, ?_⟩
      intro x hx
      simp only [bne_iff_ne, ne_eq]
      rintro rfl
      exact hpost hx

theorem find_regexAfter_eq_none_iff (sep : Char) (l : List Char) :
    (regexAfter sep).find l.length l = none ↔ ¬ HasSepAfter sep l := by
  rw [find_eq_none_iff]
  constructor
  · rintro h ⟨pre, post, hl, hpost⟩
    have := h (sep :: post) ⟨pre, hl.symm⟩
    exact (run_regexAfter sep l.length (sep :: post)).2 ⟨post, rfl, hpost⟩ this
  · intro h s hs
    by_contra hne
    obtain ⟨post, rfl, hpost⟩ := (run_regexAfter sep l.length s).1 hne
    obtain ⟨pre, hpre⟩ := hs
    exact h ⟨pre, post, hpre.symm, hpost⟩

theorem after_eq (sep : Char) (s : String) :
    ((index ((regexAfter sep).FindAllStringSubmatch s) 0).bind (fun m => index m 1) = .panic ↔
        ¬ HasSepAfter sep s.data) ∧
      (HasSepAfter sep s.data →
        ∃ out, (index ((regexAfter sep).FindAllStringSubmatch s) 0).bind (fun m => index m 1) =
          .ok out) := by
  rw [index_submatch_one _ (by simp [regexAfter, Re.numCap, Re.lit, Re.dot])]
  have hlen : s.length = s.data.length := rfl
  rw [hlen]
  have hiff := find_regexAfter_eq_none_iff sep s.data
  cases hr : (regexAfter sep).find s.data.length s.data with
  | none =>
    rw [hr] at hiff
    have hno := hiff.1 rfl
    exact ⟨by simp [hno], fun h => absurd h hno⟩
  | some h =>
    rw [hr] at hiff
    have hyes : HasSepAfter sep s.data := by
      by_contra hno
      have := hiff.2 hno
      simp at this
    exact ⟨by simp [hyes], fun _ => ⟨_, rfl⟩⟩

/-! ## Interpolation without a token (C13) -/

theorem run_seq (total : Nat) (ps : List (Char → Bool)) (l : List Char)
    (caps : List (Nat × List Char)) :
    (Re.seq ps).run total { rest := l, caps := caps } =
      if matchesPrefix ps l = true then [{ rest := l.drop ps.length, caps := caps }] else [] := by
  induction ps generalizing l with
  | nil => simp [Re.seq, Re.run, matchesPrefix]
  | cons p ps ih =>
    cases l with
    | nil => simp [Re.seq, Re.run, matchesPrefix]
    | cons c cs =>
      have ih' := ih cs
      simp only [Re.seq, List.foldr_cons, Re.run] at ih' ⊢
      by_cases hp : p c = true
      · simp only [hp, if_true, List.flatMap_singleton, matchesPrefix, Bool.true_and]
        rw [ih']
        simp
      · simp [hp, matchesPrefix]

theorem str_eq_seq (w : String) : Re.str w = Re.seq (w.data.map litPred) := by
  unfold Re.str Re.seq
  induction w.data with
  | nil => rfl
  | cons c cs ih => simp only [List.foldr_cons, List.map_cons, ih]; rfl

theorem matchesPrefix_lit (w l : List Char) :
    matchesPrefix (w.map litPred) l = true ↔ w <+: l := by
  induction w generalizing l with
  | nil => simp [matchesPrefix]
  | cons c w ih =>
    cases l with
    | nil => simp [matchesPrefix]
    | cons x l =>
      simp only [List.map_cons, matchesPrefix, Bool.and_eq_true, ih, List.cons_prefix_cons,
        litPred, beq_iff_eq]
      constructor
      · rintro ⟨h1, h2⟩; exact ⟨h1.symm, h2⟩
      · rintro ⟨h1, h2⟩; exact ⟨h1.symm, h2⟩

theorem run_str (total : Nat) (w : String) (l : List Char) (caps : List (Nat × List Char)) :
    (Re.str w).run total { rest := l, caps := caps } =
      if w.data <+: l then [{ rest := l.drop w.data.length, caps := caps }] else [] := by
  rw [str_eq_seq, run_seq]
  by_cases h : w.data <+: l
  · simp [h, (matchesPrefix_lit _ _).2 h]
  · have : ¬ matchesPrefix (w.data.map litPred) l = true := fun hm => h ((matchesPrefix_lit _ _).1 hm)
    simp [h, this]

theorem run_regexInterpolations_nil (total : Nat) (l : List Char) (caps : List (Nat × List Char))
    (h : ¬ marker <+: l) :
    regexInterpolations.run total { rest := l, caps := caps } = [] := by
  have h1 : ¬ ("#\x7bversion\x7d" : String).data <+: l := by
    intro hp
    apply h
    exact List.IsPrefix.trans ⟨['}'], rfl⟩ hp
  have h2 : ¬ ("#\x7bversion." : String).data <+: l := by
    intro hp
    apply h
    exact List.IsPrefix.trans ⟨['.'], rfl⟩ hp
  have key : ∀ (A B X : Re), A.run total { rest := l, caps := caps } = [] →
      B.run total { rest := l, caps := caps } = [] →
      (Re.alt (.cap 1 A) (.cap 2 (.cat B X))).run total { rest := l, caps := caps } = [] := by
    intro A B X hA hB
    simp [Re.run, hA, hB]
  exact key _ _ _ (by rw [run_str, if_neg h1]) (by rw [run_str, if_neg h2])

theorem find_eq_none_of_no_marker (total : Nat) (l : List Char) (h : ¬ marker <:+: l) :
    regexInterpolations.find total l = none := by
  induction l with
  | nil =>
    unfold Re.find
    rw [run_regexInterpolations_nil]
    intro hp
    exact h (List.IsPrefix.isInfix hp)
  | cons c cs ih =>
    unfold Re.find
    rw [run_regexInterpolations_nil]
    · exact ih (fun hi => h (List.IsInfix.trans hi (List.suffix_cons c cs).isInfix))
    · intro hp
      exact h (List.IsPrefix.isInfix hp)

/-- C13.  For every version and every template in which the text `#{version` does not occur,
`InterpolateIntoString` returns the template itself: no interpolation is found, so the loop
over the matches has nothing to do. -/
theorem interpolate_without_marker (v : Version) (template : String)
    (h : ¬ marker <:+: template.data) :
    v.InterpolateIntoString template = .ok template := by
  unfold Version.InterpolateIntoString Re.FindAllStringSubmatch
  have : regexInterpolations.allMatches template.length (template.length + 2)
      (some template.data) none = [] := by
    unfold Re.allMatches
    rw [find_eq_none_of_no_marker _ _ h]
  rw [this]
  rfl

/-- C13 at a template that stops one letter short of the marker. -/
theorem interpolate_without_marker_witness :
    (NewVersion "2.3.4").InterpolateIntoString "file-#\x7bversio.zip" = .ok "file-#\x7bversio.zip" :=
  interpolate_without_marker _ _ (by decide)

/-! ## Extraction of one token (C18) -/

theorem regexVersion_eq : regexVersion = .cat (.plus .digit) (.plus regexVersionGroup) := rfl

theorem run_group_nil (total : Nat) (b : List Char) (caps : List (Nat × List Char))
    (hdig : ∀ c ∈ b, c.isDigit = false)
    (hword : ∀ c, b.head? = some c → (c.isAlphanum || c == '_') = false) :
    regexVersionGroup.run total { rest := b, caps := caps } = [] := by
  unfold regexVersionGroup
  rw [run_alt, run_cat]
  cases b with
  | nil => simp [Re.oneOf, Re.word, run_set_nil]
  | cons c cs =>
    have hw := hword c rfl
    have hplus : ∀ caps', (Re.plus Re.digit).run total { rest := cs, caps := caps' } = [] := by
      intro caps'
      apply run_plus_set_nil
      intro x hx
      cases cs with
      | nil => simp at hx
      | cons y ys =>
        simp only [List.head?_cons, Option.some.injEq] at hx
        subst hx
        exact hdig _ (by simp)
    simp only [Re.oneOf, Re.word, run_set_cons, hw]
    split <;> simp [hplus]

theorem run_group_head (total : Nat) (s : Char) (ds r : List Char) (caps : List (Nat × List Char))
    (hs : s ∈ ['.', '_', '-']) (hne : ds ≠ []) (hds : ∀ c ∈ ds, c.isDigit = true)
    (hr : ∀ c, r.head? = some c → c.isDigit = false) :
    ∃ tl, regexVersionGroup.run total { rest := s :: (ds ++ r), caps := caps } =
      { rest := r, caps := caps } :: tl := by
  obtain ⟨tl, htl⟩ := run_plus_set_head Char.isDigit total caps ds r hne hds hr
  have hc : ['.', '_', '-'].contains s = true := by simpa using hs
  unfold regexVersionGroup
  rw [run_alt, run_cat]
  simp only [Re.oneOf, run_set_cons, hc, if_true, List.flatMap_singleton]
  have : (Re.plus Re.digit).run total { rest := ds ++ r, caps := caps } =
      { rest := r, caps := caps } :: tl := htl
  rw [this]
  exact ⟨_, rfl⟩

theorem groupsText_head (groups : List (Char × List Char)) (b : List Char)
    (hg : ∀ g ∈ groups, g.1 ∈ ['.', '_', '-'] ∧ g.2 ≠ [] ∧ ∀ c ∈ g.2, c.isDigit = true)
    (hdig : ∀ c ∈ b, c.isDigit = false) :
    ∀ c, (groupsText groups ++ b).head? = some c → c.isDigit = false := by
  intro c hc
  cases groups with
  | nil =>
    simp only [groupsText, List.flatMap_nil, List.nil_append] at hc
    cases b with
    | nil => simp at hc
    | cons x xs =>
      simp only [List.head?_cons, Option.some.injEq] at hc
      subst hc
      exact hdig _ (by simp)
  | cons g gs =>
    simp only [groupsText, List.flatMap_cons, List.cons_append, List.head?_cons,
      Option.some.injEq] at hc
    subst hc
    have := (hg g (List.mem_cons_self _ _)).1
    simp only [List.mem_cons, List.mem_singleton, List.not_mem_nil, or_false] at this
    rcases this with h | h | h <;> rw [h] <;> decide

theorem starLoop_groups (total : Nat) (b : List Char) (caps : List (Nat × List Char))
    (hdig : ∀ c ∈ b, c.isDigit = false)
    (hword : ∀ c, b.head? = some c → (c.isAlphanum || c == '_') = false) :
    ∀ (groups : List (Char × List Char)) (n : Nat),
      (∀ g ∈ groups, g.1 ∈ ['.', '_', '-'] ∧ g.2 ≠ [] ∧ ∀ c ∈ g.2, c.isDigit = true) →
      (groupsText groups ++ b).length ≤ n →
      ∃ tl, starLoop (fun t => regexVersionGroup.run total t) n
        { rest := groupsText groups ++ b, caps := caps } = { rest := b, caps := caps } :: tl := by
  intro groups
  induction groups with
  | nil =>
    intro n _ _
    refine ⟨[], ?_⟩
    simp only [groupsText, List.flatMap_nil, List.nil_append]
    exact starLoop_stop _ n _ (run_group_nil total b caps hdig hword)
  | cons g gs ih =>
    intro n hg hn
    have hg1 := hg g (List.mem_cons_self _ _)
    have hgs := fun g' hg' => hg g' (List.mem_cons_of_mem _ hg')
    have htext : groupsText (g :: gs) ++ b = g.1 :: (g.2 ++ (groupsText gs ++ b)) := by
      simp [groupsText]
    rw [htext] at hn ⊢
    cases n with
    | zero => simp at hn
    | succ n =>
      obtain ⟨tl1, h1⟩ := run_group_head total g.1 g.2 (groupsText gs ++ b) caps hg1.1 hg1.2.1
        hg1.2.2 (groupsText_head gs b hgs hdig)
      have hlen : (groupsText gs ++ b).length ≤ n := by
        simp only [List.length_cons, List.length_append] at hn ⊢
        omega
      obtain ⟨tl2, h2⟩ := ih n hgs hlen
      exact starLoop_head _ n _ _ _ tl1 tl2 h1
        (by simp only [List.length_cons, List.length_append]; omega) h2

theorem run_regexVersion_head (total : Nat) (d0 : List Char) (groups : List (Char × List Char))
    (b : List Char) (ht : IsToken d0 groups) (hdig : ∀ c ∈ b, c.isDigit = false)
    (hword : ∀ c, b.head? = some c → (c.isAlphanum || c == '_') = false) :
    ∃ tl, regexVersion.run total { rest := d0 ++ groupsText groups ++ b, caps := [] } =
      { rest := b, caps := [] } :: tl := by
  obtain ⟨hd0, hd0d, hgne, hg⟩ := ht
  obtain ⟨g, gs, rfl⟩ := List.exists_cons_of_ne_nil hgne
  have hg1 := hg g (List.mem_cons_self _ _)
  have hgs := fun g' hg' => hg g' (List.mem_cons_of_mem _ hg')
  rw [List.append_assoc]
  obtain ⟨tl1, h1⟩ := run_plus_set_head Char.isDigit total [] d0 (groupsText (g :: gs) ++ b) hd0
    hd0d (groupsText_head (g :: gs) b hg hdig)
  have htext : groupsText (g :: gs) ++ b = g.1 :: (g.2 ++ (groupsText gs ++ b)) := by
    simp [groupsText]
  obtain ⟨tl2, h2⟩ := run_group_head total g.1 g.2 (groupsText gs ++ b) [] hg1.1 hg1.2.1
    hg1.2.2 (groupsText_head gs b hgs hdig)
  obtain ⟨tl3, h3⟩ := starLoop_groups total b [] hdig hword gs (groupsText gs ++ b).length hgs
    (le_refl _)
  have hplus : ∃ tl, (Re.plus regexVersionGroup).run total
      { rest := groupsText (g :: gs) ++ b, caps := [] } = { rest := b, caps := [] } :: tl := by
    rw [htext, run_plus]
    exact flatMap_head _ _ _ tl2 _ tl3 h2 h3
  obtain ⟨tl4, h4⟩ := hplus
  rw [regexVersion_eq, run_cat]
  exact flatMap_head _ _ _ tl1 _ tl4 h1 h4

theorem run_regexVersion_nil (total : Nat) (l : List Char) (caps : List (Nat × List Char))
    (h : ∀ c, l.head? = some c → c.isDigit = false) :
    regexVersion.run total { rest := l, caps := caps } = [] := by
  rw [regexVersion_eq, run_cat]
  have : (Re.plus Re.digit).run total { rest := l, caps := caps } = [] :=
    run_plus_set_nil Char.isDigit total _ h
  rw [this]
  rfl

theorem find_of_run_cons (r : Re) (total : Nat) (l : List Char) (t : MState) (tl : List MState)
    (h : r.run total { rest := l, caps := [] } = t :: tl) :
    r.find total l = some { start := l, stop := t.rest, caps := t.caps } := by
  cases l with
  | nil => unfold Re.find; rw [h]
  | cons c cs => unfold Re.find; rw [h]

theorem find_append_of_nil (r : Re) (total : Nat) (a x : List Char)
    (h : ∀ s, s <:+ a → s ≠ [] → r.run total { rest := s ++ x, caps := [] } = []) :
    r.find total (a ++ x) = r.find total x := by
  induction a with
  | nil => rfl
  | cons c cs ih =>
    have h1 := h (c :: cs) (List.suffix_refl _) (by simp)
    rw [List.cons_append] at h1 ⊢
    have hstep : r.find total (c :: (cs ++ x)) = r.find total (cs ++ x) := by
      rw [Re.find, h1]
    rw [hstep]
    exact ih (fun s hs hne => h s (List.suffix_cons_iff.2 (Or.inr hs)) hne)

theorem hit_text_append (x b : List Char) (caps : List (Nat × List Char)) :
    Hit.text { start := x ++ b, stop := b, caps := caps } = x := by
  unfold Hit.text
  simp only [List.length_append, Nat.add_sub_cancel]
  exact List.take_left _ _

theorem allMatches_single (r : Re) (total fuel : Nat) (pos : List Char) (h : Hit)
    (hfind : r.find total pos = some h) (hlen : h.stop.length ≠ pos.length)
    (hnext : r.find total h.stop = none) :
    r.allMatches total (fuel + 2) (some pos) none = [h] := by
  rw [Re.allMatches, hfind]
  simp only [hlen, if_false]
  rw [Re.allMatches, hnext]

theorem find_regexVersion_none (total : Nat) (b : List Char) (hdig : ∀ c ∈ b, c.isDigit = false) :
    regexVersion.find total b = none := by
  rw [find_eq_none_iff]
  intro s hs
  apply run_regexVersion_nil
  intro c hc
  apply hdig
  apply hs.subset
  cases s with
  | nil => simp at hc
  | cons x xs =>
    simp only [List.head?_cons, Option.some.injEq] at hc
    subst hc
    exact List.mem_cons_self _ _

/-- C18.  Let the token `t` be the run of digits `d0` followed by one or more groups, each one
separator (`.`, `_` or `-`) and a non-empty run of digits; let `a` contain no digit, and `b`
contain no digit and not begin with a word character.  Then `ExtractAll (a ++ t ++ b)` is `[t]`
when `t` is not an ignored token and is empty when it is. -/
theorem extractAll_single_token (a b d0 : List Char) (groups : List (Char × List Char))
    (ht : IsToken d0 groups) (ha : ∀ c ∈ a, c.isDigit = false)
    (hb : ∀ c ∈ b, c.isDigit = false)
    (hword : ∀ c, b.head? = some c → (c.isAlphanum || c == '_') = false) :
    ExtractAll (String.mk (a ++ (d0 ++ groupsText groups) ++ b)) =
      if ignoredVersions (String.mk (d0 ++ groupsText groups)) = true then []
      else [String.mk (d0 ++ groupsText groups)] := by
  have hne : d0 ++ groupsText groups ≠ [] := by
    intro h
    exact ht.1 (List.append_eq_nil.1 h).1
  have hfind : ∀ total, regexVersion.find total (a ++ (d0 ++ groupsText groups ++ b)) =
      some { start := d0 ++ groupsText groups ++ b, stop := b, caps := [] } := by
    intro total
    obtain ⟨tl, hrun⟩ := run_regexVersion_head total d0 groups b ht hb hword
    rw [find_append_of_nil]
    · simpa using find_of_run_cons _ _ _ _ tl hrun
    · intro s hs hsne
      apply run_regexVersion_nil
      intro c hc
      apply ha
      apply hs.subset
      cases s with
      | nil => exact absurd rfl hsne
      | cons x xs =>
        simp only [List.cons_append, List.head?_cons, Option.some.injEq] at hc
        subst hc
        exact List.mem_cons_self _ _
  have hL : a ++ (d0 ++ groupsText groups) ++ b = a ++ (d0 ++ groupsText groups ++ b) :=
    List.append_assoc _ _ _
  have hall : ∀ total fuel, regexVersion.allMatches total (fuel + 2)
      (some (a ++ (d0 ++ groupsText groups ++ b))) none =
      [{ start := d0 ++ groupsText groups ++ b, stop := b, caps := [] }] := by
    intro total fuel
    apply allMatches_single _ _ _ _ _ (hfind total)
    · have := List.length_pos.2 hne
      simp only [List.length_append] at this ⊢
      omega
    · exact find_regexVersion_none _ b hb
  unfold ExtractAll Re.FindAllStringSubmatch
  show List.foldl _ [] (List.map (Hit.submatches regexVersion)
    (regexVersion.allMatches _ ((a ++ (d0 ++ groupsText groups) ++ b).length + 2)
      (some (a ++ (d0 ++ groupsText groups) ++ b)) none)) = _
  rw [hL, hall]
  have hsub : Hit.submatches regexVersion
      { start := d0 ++ groupsText groups ++ b, stop := b, caps := [] } =
      [String.mk (d0 ++ groupsText groups)] := by
    have hcap : regexVersion.numCap = 0 := by decide
    have htext := hit_text_append (d0 ++ groupsText groups) b []
    unfold Hit.submatches
    rw [hcap]
    have hrange : List.range (0 + 1) = [0] := rfl
    rw [hrange]
    simp only [List.map_cons, List.map_nil, Hit.group, if_true, htext]
  simp only [List.map_cons, List.map_nil, List.foldl_cons, List.foldl_nil, hsub, List.nil_append]

/-- C18 on the two texts of the specification: `2.3.4` is extracted, `86_64` is ignored. -/
theorem extractAll_single_token_witness :
    ExtractAll "download v2.3.4 now" = ["2.3.4"] ∧ ExtractAll "built for x86_64" = [] :=
  ⟨(extractAll_single_token "download v".data " now".data ['2'] [('.', ['3']), ('.', ['4'])]
      (by unfold IsToken; decide) (by decide) (by decide) (by decide)).trans (by decide),
    (extractAll_single_token "built for x".data [] ['8', '6'] [('_', ['6', '4'])]
      (by unfold IsToken; decide) (by decide) (by decide) (by decide)).trans (by decide)⟩

/-! ## Interpolation of one chain of methods (C11) -/

theorem marker_no_straddle (p x : List Char) (hp : ¬ marker <:+: p) (s : List Char)
    (hs : s <:+ p) (hne : s ≠ []) : ¬ marker <+: s ++ '#' :: x := by
  intro hm
  rcases Nat.lt_or_ge s.length marker.length with hlt | hge
  · have hsm : s <+: marker :=
      List.prefix_of_prefix_length_le (List.prefix_append _ _) hm (le_of_lt hlt)
    obtain ⟨q, hq⟩ := hsm
    rw [← hq] at hm
    have hq' : q <+: '#' :: x := (List.prefix_append_right_inj s).1 hm
    cases q with
    | nil =>
      rw [List.append_nil] at hq
      rw [hq] at hlt
      exact absurd hlt (lt_irrefl _)
    | cons c q' =>
      have hc : c = '#' := (List.cons_prefix_cons.1 hq').1
      subst hc
      cases s with
      | nil => exact hne rfl
      | cons d s' =>
        have hmem : '#' ∈ marker.tail := by
          rw [← hq]
          simp
        exact absurd hmem (by decide)
  · have hms : marker <+: s :=
      List.prefix_of_prefix_length_le hm (List.prefix_append _ _) hge
    exact hp (List.IsInfix.trans hms.isInfix hs.isInfix)

theorem dropsDown_append_two (p : Char → Bool) (xs : List Char) (c : Char) (r : List Char)
    (hxs : ∀ x ∈ xs, p x = true) (hc : p c = true)
    (hr : ∀ x, r.head? = some x → p x = false) :
    ∃ tl, dropsDown p (xs ++ c :: r) = r :: (c :: r) :: tl := by
  induction xs with
  | nil =>
    refine ⟨[], ?_⟩
    simp [dropsDown, hc, dropsDown_stop p r hr]
  | cons x xs ih =>
    obtain ⟨tl, htl⟩ := ih (fun y hy => hxs y (List.mem_cons_of_mem _ hy))
    refine ⟨tl ++ [x :: (xs ++ c :: r)], ?_⟩
    simp [dropsDown, hxs x (List.mem_cons_self _ _), htl]

theorem splitDots_ne_nil (l : List Char) : splitDots l ≠ [] := by
  induction l with
  | nil => simp [splitDots]
  | cons c cs ih =>
    unfold splitDots
    split
    · simp
    · split
      · simp
      · simp

theorem splitDots_no_dot (m : List Char) (hm : '.' ∉ m) : splitDots m = [m] := by
  induction m with
  | nil => rfl
  | cons c cs ih =>
    have hc : c ≠ '.' := fun h => hm (h ▸ List.mem_cons_self _ _)
    have hcs : '.' ∉ cs := fun h => hm (List.mem_cons_of_mem _ h)
    simp [splitDots, hc, ih hcs]

theorem splitDots_append_dot (m r : List Char) (hm : '.' ∉ m) :
    splitDots (m ++ '.' :: r) = m :: splitDots r := by
  induction m with
  | nil => simp [splitDots]
  | cons c cs ih =>
    have hc : c ≠ '.' := fun h => hm (h ▸ List.mem_cons_self _ _)
    have hcs : '.' ∉ cs := fun h => hm (List.mem_cons_of_mem _ h)
    simp [splitDots, hc, ih hcs]

theorem splitDots_joinDots (ms : List (List Char)) (hne : ms ≠ [])
    (hms : ∀ m ∈ ms, '.' ∉ m) : splitDots (joinDots ms) = ms := by
  induction ms with
  | nil => exact absurd rfl hne
  | cons m ms ih =>
    cases ms with
    | nil => simpa [joinDots] using splitDots_no_dot m (hms m (List.mem_cons_self _ _))
    | cons m' ms' =>
      rw [joinDots, splitDots_append_dot _ _ (hms m (List.mem_cons_self _ _)),
        ih (by simp) (fun x hx => hms x (List.mem_cons_of_mem _ hx))]

theorem intercalate_go_data (acc : String) (ms : List String) :
    (String.intercalate.go acc "." ms).data =
      acc.data ++ (ms.map (fun m => '.' :: m.data)).flatten := by
  induction ms generalizing acc with
  | nil => simp [String.intercalate.go]
  | cons m ms ih =>
    rw [String.intercalate.go, ih]
    simp [String.data_append]

theorem joinDots_cons (m : List Char) (ms : List (List Char)) :
    joinDots (m :: ms) = m ++ (ms.map (fun x => '.' :: x)).flatten := by
  induction ms generalizing m with
  | nil => simp [joinDots]
  | cons m' ms ih => rw [joinDots, ih]; simp

theorem intercalate_data (ms : List String) :
    (String.intercalate "." ms).data = joinDots (ms.map String.data) := by
  cases ms with
  | nil => rfl
  | cons m ms =>
    rw [String.intercalate, intercalate_go_data, List.map_cons, joinDots_cons, List.map_map]
    rfl

theorem expand_no_dollar (r : Re) (h : Hit) (fuel : Nat) (t : List Char) (ht : '$' ∉ t) :
    expand r h fuel t = .ok t := by
  induction fuel generalizing t with
  | zero => rfl
  | succ fuel ih =>
    cases t with
    | nil => rfl
    | cons c cs =>
      have hc : c ≠ '$' := fun hc => ht (hc ▸ List.mem_cons_self _ _)
      have hcs : '$' ∉ cs := fun hm => ht (List.mem_cons_of_mem _ hm)
      unfold expand
      simp [hc, ih cs hcs, Res.map, Res.bind]

theorem compilePattern_plain (l : List Char) (h : ∀ c ∈ l, plainChar c = true) :
    compilePattern l = some (Re.seq (l.map patPred)) := by
  induction l with
  | nil => rfl
  | cons c cs ih =>
    have hc := h c (List.mem_cons_self _ _)
    have ih' := ih (fun x hx => h x (List.mem_cons_of_mem _ hx))
    simp only [plainChar, List.contains_cons, List.contains_nil, Bool.or_false, Bool.not_eq_true',
      Bool.or_eq_false_iff, beq_eq_false_iff_ne, ne_eq] at hc
    obtain ⟨h1, h2, h3, h4, h5, h6, h7, h8, h9, h10, h11⟩ := hc
    unfold compilePattern
    rw [ih']
    by_cases hdot : c = '.'
    · subst hdot
      simp [patPred, Re.seq, Re.dot]
    · simp [hdot, h1, h2, h3, h4, h5, h6, h7, h8, h9, h10, h11, patPred, Re.seq, Re.lit]
      rfl

theorem matchesPrefix_append_left (ps qs : List (Char → Bool)) (l : List Char)
    (h : matchesPrefix (ps ++ qs) l = true) : matchesPrefix ps l = true := by
  induction ps generalizing l with
  | nil => rfl
  | cons p ps ih =>
    cases l with
    | nil => simp [matchesPrefix] at h
    | cons c cs =>
      simp only [List.cons_append, matchesPrefix, Bool.and_eq_true] at h ⊢
      exact ⟨h.1, ih cs h.2⟩

theorem patPred_self (c : Char) : patPred c c = true := by
  unfold patPred
  by_cases hdot : c = '.'
  · subst hdot; decide
  · simp [hdot, litPred]

theorem matchesPrefix_self (l r : List Char) : matchesPrefix (l.map patPred) (l ++ r) = true := by
  induction l with
  | nil => rfl
  | cons c cs ih =>
    simp only [List.map_cons, List.cons_append, matchesPrefix, Bool.and_eq_true]
    exact ⟨patPred_self c, ih⟩

theorem noneOf_eq (cs : List Char) : Re.noneOf cs = .set (notIn cs) := rfl

theorem run_regexClose (total : Nat) (l : List Char) (caps : List (Nat × List Char)) :
    regexClose.run total { rest := l, caps := caps } =
      (dropsDown (notIn ['\x7b']) l).flatMap (fun r =>
        match r with
        | [] => []
        | c :: cs => if c = '\x7d' then [{ rest := cs, caps := caps }] else []) := by
  unfold regexClose Re.lit
  rw [noneOf_eq, run_cat, run_star_set, List.flatMap_map]
  congr 1
  funext r
  cases r with
  | nil => rw [run_set_nil]
  | cons c cs =>
    rw [run_set_cons]
    by_cases hc : c = '\x7d' <;> simp [hc]

theorem run_regexClose_nil (total : Nat) (suf : List Char) (caps : List (Nat × List Char))
    (hclose : ClosedBraces suf) : regexClose.run total { rest := suf, caps := caps } = [] := by
  rw [run_regexClose, List.flatMap_eq_nil_iff]
  intro r hr
  cases r with
  | nil => rfl
  | cons c cs =>
    by_cases hc : c = '\x7d'
    · exfalso
      subst hc
      obtain ⟨pre, hl, hall⟩ := (mem_dropsDown _ _ _).1 hr
      have := hall _ (hclose pre cs hl)
      simp [notIn] at this
    · simp [hc]

theorem run_regexClose_brace (total : Nat) (suf : List Char) (caps : List (Nat × List Char))
    (hclose : ClosedBraces suf) :
    regexClose.run total { rest := '\x7d' :: suf, caps := caps } =
      [{ rest := suf, caps := caps }] := by
  have hnil := run_regexClose_nil total suf caps hclose
  rw [run_regexClose] at hnil ⊢
  have hd : dropsDown (notIn ['\x7b']) ('\x7d' :: suf) =
      dropsDown (notIn ['\x7b']) suf ++ ['\x7d' :: suf] := by
    simp [dropsDown, notIn]
  rw [hd, List.flatMap_append, hnil]
  simp

theorem run_regexTail_brace (total : Nat) (suf : List Char) (caps : List (Nat × List Char))
    (hclose : ClosedBraces suf) :
    regexTail.run total { rest := '\x7d' :: suf, caps := caps } = [] := by
  unfold regexTail Re.dot
  rw [run_cat, run_set_cons]
  simp [run_regexClose_nil total suf caps hclose]

theorem run_regexTail_char (total : Nat) (c : Char) (suf : List Char)
    (caps : List (Nat × List Char)) (hc : c ≠ '\n') (hclose : ClosedBraces suf) :
    regexTail.run total { rest := c :: '\x7d' :: suf, caps := caps } =
      [{ rest := suf, caps := caps }] := by
  unfold regexTail Re.dot
  rw [run_cat, run_set_cons]
  simp [hc, run_regexClose_brace total suf caps hclose]

theorem regexInterpolations_eq : regexInterpolations =
    .alt (.cap 1 (.str "#\x7bversion\x7d"))
      (.cap 2 (.cat (.str "#\x7bversion.") (.cat (.star (.noneOf ['\x7d'])) regexTail))) := rfl

theorem run_interpolation_token (total : Nat) (chain suf : List Char) (hchain : ChainOk chain)
    (hclose : ClosedBraces suf) :
    ∃ caps tl, regexInterpolations.run total { rest := tokenOf chain ++ suf, caps := [] } =
      { rest := suf, caps := caps } :: tl := by
  obtain ⟨hne, hch⟩ := hchain
  rcases List.eq_nil_or_concat chain with hnil | ⟨init, c, hcat⟩
  · exact absurd hnil hne
  rw [List.concat_eq_append] at hcat
  have hinit : ∀ x ∈ init, (notIn ['\x7d']) x = true := by
    intro x hx
    have := (hch x (by rw [hcat]; simp [hx])).1
    simpa [notIn] using this
  have hc := hch c (by rw [hcat]; simp)
  obtain ⟨tl, hdd⟩ := dropsDown_append_two (notIn ['\x7d']) init c
    ('\x7d' :: suf) hinit (by simpa [notIn] using hc.1) (by simp [notIn])
  have htext : tokenOf chain ++ suf = opening ++ (init ++ c :: '\x7d' :: suf) := by
    rw [hcat]
    simp [tokenOf]
  have h1 : ¬ ("#\x7bversion\x7d" : String).data <+: tokenOf chain ++ suf := by
    rw [htext]
    have : opening ++ (init ++ c :: '\x7d' :: suf) =
        '#' :: '\x7b' :: 'v' :: 'e' :: 'r' :: 's' :: 'i' :: 'o' :: 'n' :: '.' ::
          (init ++ c :: '\x7d' :: suf) := rfl
    rw [this]
    have hd : ("#\x7bversion\x7d" : String).data =
        ['#', '\x7b', 'v', 'e', 'r', 's', 'i', 'o', 'n', '\x7d'] := rfl
    rw [hd]
    simp [List.cons_prefix_cons]
  have h2 : ("#\x7bversion." : String).data <+: tokenOf chain ++ suf := by
    rw [htext]
    exact List.prefix_append _ _
  have hdrop : (tokenOf chain ++ suf).drop ("#\x7bversion." : String).data.length =
      init ++ c :: '\x7d' :: suf := by
    rw [htext]
    exact List.drop_left _ _
  rw [regexInterpolations_eq, run_alt, run_cap, run_cap, run_str, if_neg h1, run_cat, run_str,
    if_pos h2, hdrop, List.flatMap_singleton, run_cat]
  rw [noneOf_eq, run_star_set]
  simp only [hdd, List.map_cons, List.flatMap_cons, List.map_nil, List.nil_append]
  rw [run_regexTail_brace total suf [] hclose, run_regexTail_char total c suf [] hc.2.1 hclose]
  simp only [List.nil_append, List.singleton_append, List.map_cons]
  exact ⟨_, _, rfl⟩

theorem regexAllMethods_eq : regexAllMethods =
    .cat (.cat .bot (.str "#\x7bversion.")) (.cat (.cap 1 (.star .dot)) (.lit '\x7d')) := rfl

theorem run_allMethods_token (chain : List Char) (hchain : ChainOk chain) :
    ∃ tl, regexAllMethods.run (tokenOf chain).length { rest := tokenOf chain, caps := [] } =
      { rest := [], caps := [(1, chain)] } :: tl := by
  obtain ⟨hne, hch⟩ := hchain
  have hall : ∀ x ∈ chain, (fun x => x != '\n') x = true := by
    intro x hx
    simpa using (hch x hx).2.1
  obtain ⟨tl, hdd⟩ := dropsDown_append_two (fun x => x != '\n') chain '\x7d' [] hall
    (by decide) (by simp)
  have htext : tokenOf chain = opening ++ (chain ++ ['\x7d']) := by
    simp [tokenOf]
  have h2 : ("#\x7bversion." : String).data <+: tokenOf chain := by
    rw [htext]
    exact List.prefix_append _ _
  have hdrop : (tokenOf chain).drop ("#\x7bversion." : String).data.length =
      chain ++ ['\x7d'] := by
    rw [htext]
    exact List.drop_left _ _
  have htake : List.take ((chain ++ ['\x7d']).length - ['\x7d'].length) (chain ++ ['\x7d']) =
      chain := by
    simp
  rw [regexAllMethods_eq, run_cat, run_cat, run_bot, if_pos rfl, List.flatMap_singleton, run_str,
    if_pos h2, hdrop, List.flatMap_singleton, run_cat, run_cap]
  unfold Re.dot Re.lit
  rw [run_star_set]
  simp only [hdd, List.map_cons, List.flatMap_cons, run_set_nil, run_set_cons, List.nil_append,
    beq_self_eq_true, if_true, htake, List.singleton_append]
  exact ⟨_, rfl⟩

theorem tokenOf_cons (chain : List Char) :
    tokenOf chain = '#' :: ('\x7b' :: 'v' :: 'e' :: 'r' :: 's' :: 'i' :: 'o' :: 'n' :: '.' ::
      (chain ++ ['\x7d'])) := by
  simp [tokenOf, opening]

theorem marker_prefix_tokenOf (chain r : List Char) : marker <+: tokenOf chain ++ r := by
  refine ⟨'.' :: (chain ++ ['\x7d']) ++ r, ?_⟩
  simp [tokenOf, opening, marker]

theorem find_interpolation_token (total : Nat) (pre chain suf : List Char)
    (hchain : ChainOk chain) (hpre : ¬ marker <:+: pre) (hclose : ClosedBraces suf) :
    ∃ caps, regexInterpolations.find total (pre ++ (tokenOf chain ++ suf)) =
      some { start := tokenOf chain ++ suf, stop := suf, caps := caps } := by
  obtain ⟨caps, tl, hrun⟩ := run_interpolation_token total chain suf hchain hclose
  refine ⟨caps, ?_⟩
  rw [find_append_of_nil]
  · simpa using find_of_run_cons _ _ _ _ tl hrun
  · intro s hs hne
    apply run_regexInterpolations_nil
    rw [tokenOf_cons, List.cons_append]
    exact marker_no_straddle pre _ hpre s hs hne

theorem index_submatches_zero (r : Re) (h : Hit) :
    index (h.submatches r) 0 = .ok (String.mk h.text) := by
  unfold Hit.submatches
  rw [List.range_succ_eq_map]
  simp [index, Hit.group]

theorem findAll_interpolation_token (pre chain suf : List Char) (hchain : ChainOk chain)
    (hpre : ¬ marker <:+: pre) (hsuf : ¬ marker <:+: suf) (hclose : ClosedBraces suf) :
    ∃ m, regexInterpolations.FindAllStringSubmatch (String.mk (pre ++ (tokenOf chain ++ suf))) =
        [m] ∧ index m 0 = .ok (String.mk (tokenOf chain)) := by
  obtain ⟨caps, hfind⟩ := find_interpolation_token (pre ++ (tokenOf chain ++ suf)).length pre
    chain suf hchain hpre hclose
  have hall := allMatches_single regexInterpolations (pre ++ (tokenOf chain ++ suf)).length
    (pre ++ (tokenOf chain ++ suf)).length (pre ++ (tokenOf chain ++ suf)) _ hfind
    (by
      have : 0 < (tokenOf chain).length := by rw [tokenOf_cons]; simp
      simp only [List.length_append]
      omega)
    (find_eq_none_of_no_marker _ _ hsuf)
  refine ⟨Hit.submatches regexInterpolations
    { start := tokenOf chain ++ suf, stop := suf, caps := caps }, ?_, ?_⟩
  · exact congrArg (List.map (Hit.submatches regexInterpolations)) hall
  · rw [index_submatches_zero, hit_text_append]

theorem compilePattern_tokenOf (chain : List Char) (hchain : ChainOk chain) :
    compilePattern (tokenOf chain) = some (Re.seq ((tokenOf chain).map patPred)) := by
  have hrest : compilePattern ('v' :: 'e' :: 'r' :: 's' :: 'i' :: 'o' :: 'n' :: '.' ::
      (chain ++ ['\x7d'])) = some (Re.seq (('v' :: 'e' :: 'r' :: 's' :: 'i' :: 'o' :: 'n' :: '.' ::
      (chain ++ ['\x7d'])).map patPred)) := by
    apply compilePattern_plain
    intro c hc
    simp only [List.mem_cons, List.mem_append, List.mem_singleton, List.not_mem_nil,
      or_false] at hc
    rcases hc with h | h | h | h | h | h | h | h | h | h
    any_goals (rw [h]; decide)
    exact (hchain.2 c h).2.2
  rw [tokenOf_cons]
  unfold compilePattern
  simp only [show ('#' : Char) ≠ '.' by decide, if_false, show ('#' : Char) ≠ '\x7b' by decide]
  unfold compilePattern
  simp only [show ('\x7b' : Char) ≠ '.' by decide, if_false, if_true,
    show ('v' : Char).isDigit = false by decide, Bool.false_eq_true]
  rw [hrest]
  simp [Re.seq, patPred, Re.lit]
  exact ⟨rfl, rfl⟩

theorem run_tokenPattern_nil (total : Nat) (chain l : List Char) (h : ¬ marker <+: l) :
    (Re.seq ((tokenOf chain).map patPred)).run total { rest := l, caps := [] } = [] := by
  rw [run_seq]
  have : ¬ matchesPrefix ((tokenOf chain).map patPred) l = true := by
    intro hm
    apply h
    have hsplit : (tokenOf chain).map patPred =
        marker.map litPred ++ ('.' :: (chain ++ ['\x7d'])).map patPred := by
      rw [tokenOf_cons]
      simp [marker, patPred]
    rw [hsplit] at hm
    exact (matchesPrefix_lit _ _).1 (matchesPrefix_append_left _ _ _ hm)
  rw [if_neg this]

theorem find_tokenPattern (total : Nat) (pre chain suf : List Char) (hpre : ¬ marker <:+: pre) :
    (Re.seq ((tokenOf chain).map patPred)).find total (pre ++ (tokenOf chain ++ suf)) =
      some { start := tokenOf chain ++ suf, stop := suf, caps := [] } := by
  have hrun : (Re.seq ((tokenOf chain).map patPred)).run total
      { rest := tokenOf chain ++ suf, caps := [] } = [{ rest := suf, caps := [] }] := by
    rw [run_seq, if_pos (matchesPrefix_self _ _), List.length_map, List.drop_left]
  rw [find_append_of_nil]
  · simpa using find_of_run_cons _ _ _ _ [] hrun
  · intro s hs hne
    apply run_tokenPattern_nil
    rw [tokenOf_cons, List.cons_append]
    exact marker_no_straddle pre _ hpre s hs hne

theorem find_tokenPattern_none (total : Nat) (chain suf : List Char) (hsuf : ¬ marker <:+: suf) :
    (Re.seq ((tokenOf chain).map patPred)).find total suf = none := by
  rw [find_eq_none_iff]
  intro s hs
  apply run_tokenPattern_nil
  intro hp
  exact hsuf (List.IsInfix.trans hp.isInfix hs.isInfix)

theorem replaceAll_token (total fuel : Nat) (pre chain suf part : List Char)
    (hpre : ¬ marker <:+: pre) (hsuf : ¬ marker <:+: suf) (hpart : '$' ∉ part) :
    (Re.seq ((tokenOf chain).map patPred)).replaceAll total part (fuel + 2)
      (some (pre ++ (tokenOf chain ++ suf))) (pre ++ (tokenOf chain ++ suf)) =
      .ok (pre ++ part ++ suf) := by
  have htok : 0 < (tokenOf chain).length := by rw [tokenOf_cons]; simp
  have hlt : suf.length < (pre ++ (tokenOf chain ++ suf)).length := by
    simp only [List.length_append]; omega
  have hgap : (pre ++ (tokenOf chain ++ suf)).take
      ((pre ++ (tokenOf chain ++ suf)).length - (tokenOf chain ++ suf).length) = pre := by
    simp
  rw [Re.replaceAll, find_tokenPattern total pre chain suf hpre]
  simp only [hlt, true_or, if_true, expand_no_dollar _ _ _ _ hpart, ne_of_lt hlt, if_false, hgap,
    Res.bind]
  rw [Re.replaceAll, find_tokenPattern_none total chain suf hsuf]
  simp [Res.map, Res.bind]

theorem vocabulary_chars : ∀ m ∈ vocabulary, m.data ≠ [] ∧
    ∀ c ∈ m.data, c ≠ '.' ∧ c ≠ '\x7d' ∧ c ≠ '\n' ∧ plainChar c = true := by
  decide

theorem mem_joinDots (ms : List (List Char)) (c : Char) (hc : c ∈ joinDots ms) :
    c = '.' ∨ ∃ m ∈ ms, c ∈ m := by
  rcases ms with _ | ⟨m, ms⟩
  · simp [joinDots] at hc
  · rw [joinDots_cons] at hc
    simp only [List.mem_append, List.mem_flatten, List.mem_map] at hc
    rcases hc with h | ⟨l, ⟨x, hx, rfl⟩, hcl⟩
    · exact Or.inr ⟨m, List.mem_cons_self _ _, h⟩
    · rcases List.mem_cons.1 hcl with h | h
      · exact Or.inl h
      · exact Or.inr ⟨x, List.mem_cons_of_mem _ hx, h⟩

theorem chainOk_of_vocabulary (methods : List String) (hne : methods ≠ [])
    (hvoc : ∀ m ∈ methods, m ∈ vocabulary) : ChainOk (joinDots (methods.map String.data)) := by
  constructor
  · obtain ⟨m, ms, rfl⟩ := List.exists_cons_of_ne_nil hne
    rw [List.map_cons, joinDots_cons]
    intro h
    exact (vocabulary_chars m (hvoc m (List.mem_cons_self _ _))).1 (List.append_eq_nil.1 h).1
  · intro c hc
    rcases mem_joinDots _ c hc with h | ⟨l, hl, hcl⟩
    · subst h; decide
    · obtain ⟨m, hm, rfl⟩ := List.mem_map.1 hl
      have := (vocabulary_chars m (hvoc m hm)).2 c hcl
      exact ⟨this.2.1, this.2.2.1, this.2.2.2⟩

theorem split_chain (methods : List String) (hne : methods ≠ [])
    (hvoc : ∀ m ∈ methods, m ∈ vocabulary) :
    Split (String.mk (joinDots (methods.map String.data))) = methods := by
  unfold Split
  show List.map String.mk (splitDots (joinDots (methods.map String.data))) = methods
  rw [splitDots_joinDots _ (by simpa using hne)]
  · rw [List.map_map]
    conv_rhs => rw [← List.map_id methods]
    apply List.map_congr_left
    intro m _
    rfl
  · intro l hl
    obtain ⟨m, hm, rfl⟩ := List.mem_map.1 hl
    intro hdot
    exact ((vocabulary_chars m (hvoc m hm)).2 _ hdot).1 rfl

theorem allMethods_token (chain : List Char) (hchain : ChainOk chain) :
    ∃ m0 tl, regexAllMethods.FindAllStringSubmatch (String.mk (tokenOf chain)) = m0 :: tl ∧
      index m0 1 = .ok (String.mk chain) := by
  obtain ⟨tl, hrun⟩ := run_allMethods_token chain hchain
  have hfind := find_of_run_cons _ _ _ _ tl hrun
  have hhead := allMatches_first regexAllMethods (tokenOf chain).length
    ((tokenOf chain).length + 1) (tokenOf chain)
  rw [hfind] at hhead
  obtain ⟨tl', htl'⟩ : ∃ tl', regexAllMethods.allMatches (tokenOf chain).length
      ((tokenOf chain).length + 1 + 1) (some (tokenOf chain)) none =
      { start := tokenOf chain, stop := [], caps := [(1, chain)] } :: tl' := by
    cases hl : regexAllMethods.allMatches (tokenOf chain).length
      ((tokenOf chain).length + 1 + 1) (some (tokenOf chain)) none with
    | nil => rw [hl] at hhead; simp at hhead
    | cons x xs =>
      rw [hl] at hhead
      simp only [List.head?_cons, Option.some.injEq] at hhead
      exact ⟨xs, by rw [hhead]⟩
  refine ⟨_, _, congrArg (List.map (Hit.submatches regexAllMethods)) htl', ?_⟩
  have hcap : regexAllMethods.numCap = 1 := by decide
  simp [Hit.submatches, hcap, List.range_succ, index, Hit.group]

theorem interpolateLoop_single (v : Version) (m : List String)
    (result found chain part result' : String) (re : Re) (m0 : List String)
    (tl : List (List String)) (hidx : index m 0 = .ok found)
    (hmeth : regexAllMethods.FindAllStringSubmatch found = m0 :: tl)
    (hm0 : index m0 1 = .ok chain)
    (happly : applyMethods (Split chain) v.Value = .ok (some part))
    (hcomp : MustCompile found = .ok re)
    (hrepl : re.ReplaceAllString result part = .ok result') :
    interpolateLoop v [m] result = .ok result' := by
  have hlen : ¬ ((m0 :: tl).length < 1) := by simp
  have hzero : index (m0 :: tl) 0 = .ok m0 := by simp [index]
  rw [interpolateLoop, hidx]
  simp only [Res.bind, hmeth, if_neg hlen, hzero, hm0, happly, hcomp, hrepl, interpolateLoop]

theorem closedBraces_of_takeWhile (suf : List Char)
    (h : '\x7d' ∉ suf.takeWhile (fun c => c != '\x7b')) : ClosedBraces suf := by
  intro pre post hsuf
  by_contra hno
  apply h
  rw [hsuf, List.takeWhile_append_of_pos]
  · simp [List.takeWhile_cons]
  · intro a ha
    simp only [bne_iff_ne, ne_eq]
    rintro rfl
    exact hno ha

/-- C11, amended.  Let `methods` be a non-empty chain of method names that
`InterpolateIntoString` knows, which applied in order to the value of `v` give `part`; let the
text `#{version` occur neither in `pre` nor in `suf`; let `suf` have no closing brace before its
first opening brace, and `part` no dollar sign.  Then `InterpolateIntoString` on
`pre ++ "#{version.m1.….mk}" ++ suf` returns `pre ++ part ++ suf`. -/
theorem interpolate_chain (v : Version) (methods : List String) (pre suf part : String)
    (hne : methods ≠ []) (hvoc : ∀ m ∈ methods, m ∈ vocabulary)
    (hpart : applyMethods methods v.Value = .ok (some part))
    (hpre : ¬ marker <:+: pre.data) (hsuf : ¬ marker <:+: suf.data)
    (hclose : '\x7d' ∉ suf.data.takeWhile (fun c => c != '\x7b'))
    (hdollar : '$' ∉ part.data) :
    v.InterpolateIntoString
        (pre ++ "#\x7bversion." ++ String.intercalate "." methods ++ "\x7d" ++ suf) =
      .ok (pre ++ part ++ suf) := by
  have hchain := chainOk_of_vocabulary methods hne hvoc
  have hclose := closedBraces_of_takeWhile suf.data hclose
  have htemplate : pre ++ "#\x7bversion." ++ String.intercalate "." methods ++ "\x7d" ++ suf =
      String.mk (pre.data ++ (tokenOf (joinDots (methods.map String.data)) ++ suf.data)) := by
    apply String.ext
    simp only [String.data_append, intercalate_data, tokenOf, opening, List.append_assoc]
  rw [htemplate]
  obtain ⟨m, hall, hidx⟩ := findAll_interpolation_token pre.data _ suf.data hchain hpre hsuf hclose
  obtain ⟨m0, tl, hmeth, hm0⟩ := allMethods_token _ hchain
  have hcomp : MustCompile (String.mk (tokenOf (joinDots (methods.map String.data)))) =
      .ok (Re.seq ((tokenOf (joinDots (methods.map String.data))).map patPred)) := by
    unfold MustCompile
    show (match compilePattern (tokenOf (joinDots (methods.map String.data))) with
      | some r => Res.ok r
      | none => Res.beyond) = _
    rw [compilePattern_tokenOf _ hchain]
  have hrepl : (Re.seq ((tokenOf (joinDots (methods.map String.data))).map patPred)).ReplaceAllString
      (String.mk (pre.data ++ (tokenOf (joinDots (methods.map String.data)) ++ suf.data))) part =
      .ok (pre ++ part ++ suf) :=
    congrArg (Res.map String.mk) (replaceAll_token
      (pre.data ++ (tokenOf (joinDots (methods.map String.data)) ++ suf.data)).length
      (pre.data ++ (tokenOf (joinDots (methods.map String.data)) ++ suf.data)).length
      pre.data (joinDots (methods.map String.data)) suf.data part.data hpre hsuf hdollar)
  unfold Version.InterpolateIntoString
  rw [hall]
  exact interpolateLoop_single v m _ _ _ part _ _ m0 tl hidx hmeth hm0
    (by rw [split_chain methods hne hvoc]; exact hpart) hcomp hrepl

/-- The amended C11 at the value `2.3.4` and the template `file-#{version.major_minor}.zip`. -/
theorem interpolate_chain_witness :
    (NewVersion "2.3.4").InterpolateIntoString "file-#\x7bversion.major_minor\x7d.zip" =
      .ok "file-2.3.zip" :=
  interpolate_chain (NewVersion "2.3.4") ["major_minor"] "file-" ".zip" "2.3" (by decide)
    (by decide) (by decide) (by decide) (by decide) (by decide) (by decide)

/-- C11, as stated, fails twice.  With the suffix `}` the token found is `#{version.major}}`,
whose chain is the unknown method `major}`, and the template comes back unchanged instead of
`2}`.  With the value `1,$0` the part `$0` is expanded as a template of the replacement, the
whole match is put back, and the template comes back unchanged instead of `a$0b`. -/
theorem interpolate_chain_counterexample :
    (applyMethods ["major"] "2.3.4" = .ok (some "2") ∧
      (NewVersion "2.3.4").InterpolateIntoString "#\x7bversion.major\x7d\x7d" =
        .ok "#\x7bversion.major\x7d\x7d" ∧
      (NewVersion "2.3.4").InterpolateIntoString "#\x7bversion.major\x7d\x7d" ≠
        .ok ("" ++ "2" ++ "\x7d")) ∧
      (applyMethods ["after_comma"] "1,$0" = .ok (some "$0") ∧
        (NewVersion "1,$0").InterpolateIntoString "a#\x7bversion.after_comma\x7db" =
          .ok "a#\x7bversion.after_comma\x7db" ∧
        (NewVersion "1,$0").InterpolateIntoString "a#\x7bversion.after_comma\x7db" ≠
          .ok ("a" ++ "$0" ++ "b")) := by
  decide

/-! ## Derivations: what they return (C14) and where they panic (C15) -/

theorem majorOf_panicsUnless (l : List Char) : PanicsUnless (majorOf l) (StartsMajor l) := by
  unfold PanicsUnless StartsMajor majorOf
  rcases l with _ | ⟨a, rest⟩
  · simp
  · by_cases ha : a.isDigit = true
    · simp [ha]
    · simp [ha]

theorem minorOf_panicsUnless (l : List Char) :
    PanicsUnless (minorOf l) (StartsMajorMinor l) := by
  rcases l with _ | ⟨a, _ | ⟨b, _ | ⟨c, rest⟩⟩⟩
  · simp [PanicsUnless, StartsMajorMinor, minorOf]
  · simp [PanicsUnless, StartsMajorMinor, minorOf]
  · simp [PanicsUnless, StartsMajorMinor, minorOf]
  · by_cases h : (a.isDigit && b == '.' && c.isDigit) = true
    · have hp : StartsMajorMinor (a :: b :: c :: rest) := by
        simp only [Bool.and_eq_true, beq_iff_eq] at h
        obtain ⟨⟨ha, hb⟩, hc⟩ := h
        exact ⟨a, c, rest, ha, hc, by rw [hb]⟩
      show PanicsUnless (if (a.isDigit && b == '.' && c.isDigit) = true then _ else _) _
      rw [if_pos h]
      exact ⟨fun _ => ⟨_, rfl⟩, fun hn => absurd hp hn⟩
    · have hnp : ¬ StartsMajorMinor (a :: b :: c :: rest) := by
        rintro ⟨d1, d2, r, h1, h2, heq⟩
        simp only [List.cons.injEq] at heq
        obtain ⟨rfl, rfl, rfl, -⟩ := heq
        apply h
        simp [h1, h2]
      show PanicsUnless (if (a.isDigit && b == '.' && c.isDigit) = true then _ else _) _
      rw [if_neg h]
      exact ⟨fun hp => absurd hp hnp, fun _ => rfl⟩

theorem majorMinorOf_panicsUnless (l : List Char) :
    PanicsUnless (majorMinorOf l) (StartsMajorMinor l) := by
  rcases l with _ | ⟨a, _ | ⟨b, _ | ⟨c, rest⟩⟩⟩
  · simp [PanicsUnless, StartsMajorMinor, majorMinorOf]
  · simp [PanicsUnless, StartsMajorMinor, majorMinorOf]
  · simp [PanicsUnless, StartsMajorMinor, majorMinorOf]
  · by_cases h : (a.isDigit && b == '.' && c.isDigit) = true
    · have hp : StartsMajorMinor (a :: b :: c :: rest) := by
        simp only [Bool.and_eq_true, beq_iff_eq] at h
        obtain ⟨⟨ha, hb⟩, hc⟩ := h
        exact ⟨a, c, rest, ha, hc, by rw [hb]⟩
      show PanicsUnless (if (a.isDigit && b == '.' && c.isDigit) = true then _ else _) _
      rw [if_pos h]
      exact ⟨fun _ => ⟨_, rfl⟩, fun hn => absurd hp hn⟩
    · have hnp : ¬ StartsMajorMinor (a :: b :: c :: rest) := by
        rintro ⟨d1, d2, r, h1, h2, heq⟩
        simp only [List.cons.injEq] at heq
        obtain ⟨rfl, rfl, rfl, -⟩ := heq
        apply h
        simp [h1, h2]
      show PanicsUnless (if (a.isDigit && b == '.' && c.isDigit) = true then _ else _) _
      rw [if_neg h]
      exact ⟨fun hp => absurd hp hnp, fun _ => rfl⟩

theorem patchOf_panicsUnless (l : List Char) :
    PanicsUnless (patchOf l) (StartsMajorMinorPatch l) := by
  rcases l with _ | ⟨a, _ | ⟨b, _ | ⟨c, _ | ⟨d, _ | ⟨e, rest⟩⟩⟩⟩⟩
  · simp [PanicsUnless, StartsMajorMinorPatch, patchOf]
  · simp [PanicsUnless, StartsMajorMinorPatch, patchOf]
  · simp [PanicsUnless, StartsMajorMinorPatch, patchOf]
  · simp [PanicsUnless, StartsMajorMinorPatch, patchOf]
  · simp [PanicsUnless, StartsMajorMinorPatch, patchOf]
  · by_cases h : (a.isDigit && b == '.' && c.isDigit && d == '.' && e.isDigit) = true
    · have hp : StartsMajorMinorPatch (a :: b :: c :: d :: e :: rest) := by
        simp only [Bool.and_eq_true, beq_iff_eq] at h
        obtain ⟨⟨⟨⟨ha, hb⟩, hc⟩, hd⟩, he⟩ := h
        exact ⟨a, c, e, rest, ha, hc, he, by rw [hb, hd]⟩
      show PanicsUnless (if (a.isDigit && b == '.' && c.isDigit && d == '.' && e.isDigit) = true then _ else _) _
      rw [if_pos h]
      exact ⟨fun _ => ⟨_, rfl⟩, fun hn => absurd hp hn⟩
    · have hnp : ¬ StartsMajorMinorPatch (a :: b :: c :: d :: e :: rest) := by
        rintro ⟨d1, d2, d3, r, h1, h2, h3, heq⟩
        simp only [List.cons.injEq] at heq
        obtain ⟨rfl, rfl, rfl, rfl, rfl, -⟩ := heq
        apply h
        simp [h1, h2, h3]
      show PanicsUnless (if (a.isDigit && b == '.' && c.isDigit && d == '.' && e.isDigit) = true then _ else _) _
      rw [if_neg h]
      exact ⟨fun hp => absurd hp hnp, fun _ => rfl⟩

theorem majorMinorPatchOf_panicsUnless (l : List Char) :
    PanicsUnless (majorMinorPatchOf l) (StartsMajorMinorPatch l) := by
  rcases l with _ | ⟨a, _ | ⟨b, _ | ⟨c, _ | ⟨d, _ | ⟨e, rest⟩⟩⟩⟩⟩
  · simp [PanicsUnless, StartsMajorMinorPatch, majorMinorPatchOf]
  · simp [PanicsUnless, StartsMajorMinorPatch, majorMinorPatchOf]
  · simp [PanicsUnless, StartsMajorMinorPatch, majorMinorPatchOf]
  · simp [PanicsUnless, StartsMajorMinorPatch, majorMinorPatchOf]
  · simp [PanicsUnless, StartsMajorMinorPatch, majorMinorPatchOf]
  · by_cases h : (a.isDigit && b == '.' && c.isDigit && d == '.' && e.isDigit) = true
    · have hp : StartsMajorMinorPatch (a :: b :: c :: d :: e :: rest) := by
        simp only [Bool.and_eq_true, beq_iff_eq] at h
        obtain ⟨⟨⟨⟨ha, hb⟩, hc⟩, hd⟩, he⟩ := h
        exact ⟨a, c, e, rest, ha, hc, he, by rw [hb, hd]⟩
      show PanicsUnless (if (a.isDigit && b == '.' && c.isDigit && d == '.' && e.isDigit) = true then _ else _) _
      rw [if_pos h]
      exact ⟨fun _ => ⟨_, rfl⟩, fun hn => absurd hp hn⟩
    · have hnp : ¬ StartsMajorMinorPatch (a :: b :: c :: d :: e :: rest) := by
        rintro ⟨d1, d2, d3, r, h1, h2, h3, heq⟩
        simp only [List.cons.injEq] at heq
        obtain ⟨rfl, rfl, rfl, rfl, rfl, -⟩ := heq
        apply h
        simp [h1, h2, h3]
      show PanicsUnless (if (a.isDigit && b == '.' && c.isDigit && d == '.' && e.isDigit) = true then _ else _) _
      rw [if_neg h]
      exact ⟨fun hp => absurd hp hnp, fun _ => rfl⟩

theorem before_panicsUnless (sep : Char) (s : String) :
    PanicsUnless ((index ((regexBefore sep).FindAllStringSubmatch s) 0).bind (fun m => index m 1))
      (HasSepBefore sep s.data) := by
  obtain ⟨h1, h2⟩ := before_eq sep s
  exact ⟨h2, fun h => h1.2 h⟩

theorem after_panicsUnless (sep : Char) (s : String) :
    PanicsUnless ((index ((regexAfter sep).FindAllStringSubmatch s) 0).bind (fun m => index m 1))
      (HasSepAfter sep s.data) := by
  obtain ⟨h1, h2⟩ := after_eq sep s
  exact ⟨h2, fun h => h1.2 h⟩

/-- C14.  When the value begins with `d1.d2.d3`, three single decimal digits, whatever
follows, `Major` returns `d1`, `Minor` returns `d2`, `Patch` returns `d3`, `MajorMinor` returns
`d1.d2` and `MajorMinorPatch` returns `d1.d2.d3`, which is the three parts joined by dots. -/
theorem derivations_of_three_digits (v : Version) (d1 d2 d3 : Char) (rest : List Char)
    (h1 : d1.isDigit = true) (h2 : d2.isDigit = true) (h3 : d3.isDigit = true)
    (hv : v.Value.data = d1 :: '.' :: d2 :: '.' :: d3 :: rest) :
    v.Major = .ok (String.mk [d1]) ∧ v.Minor = .ok (String.mk [d2]) ∧
      v.Patch = .ok (String.mk [d3]) ∧ v.MajorMinor = .ok (String.mk [d1, '.', d2]) ∧
      v.MajorMinorPatch = .ok (String.mk [d1, '.', d2, '.', d3]) ∧
      String.mk [d1, '.', d2, '.', d3] =
        String.mk [d1] ++ "." ++ String.mk [d2] ++ "." ++ String.mk [d3] := by
  rw [major_eq, minor_eq, patch_eq, majorMinor_eq, majorMinorPatch_eq, hv]
  simp [majorOf, minorOf, patchOf, majorMinorOf, majorMinorPatchOf, h1, h2, h3]
  rfl

/-- C14 at the value `2.3.4`. -/
theorem derivations_of_three_digits_witness :
    (NewVersion "2.3.4").Major = .ok "2" ∧ (NewVersion "2.3.4").Minor = .ok "3" ∧
      (NewVersion "2.3.4").Patch = .ok "4" ∧ (NewVersion "2.3.4").MajorMinor = .ok "2.3" ∧
      (NewVersion "2.3.4").MajorMinorPatch = .ok "2.3.4" ∧
      ("2.3.4" : String) = "2" ++ "." ++ "3" ++ "." ++ "4" :=
  derivations_of_three_digits (NewVersion "2.3.4") '2' '3' '4' [] (by decide) (by decide)
    (by decide) rfl

/-- The extent of the panics of the derivations.  Each of the nine either returns a string
or panics, and it panics exactly when the shape its expression needs is absent: `Major` unless
the value begins with a digit; `Minor` and `MajorMinor` unless it begins with digit, dot,
digit; `Patch` and `MajorMinorPatch` unless it begins with digit, dot, digit, dot, digit;
`BeforeComma` and `BeforeColon` unless the value has the separator with no newline before it;
`AfterComma` and `AfterColon` unless it has the separator with no newline after it. -/
theorem derivations_panic_extent (v : Version) :
    PanicsUnless v.Major (StartsMajor v.Value.data) ∧
      PanicsUnless v.Minor (StartsMajorMinor v.Value.data) ∧
      PanicsUnless v.Patch (StartsMajorMinorPatch v.Value.data) ∧
      PanicsUnless v.MajorMinor (StartsMajorMinor v.Value.data) ∧
      PanicsUnless v.MajorMinorPatch (StartsMajorMinorPatch v.Value.data) ∧
      PanicsUnless v.BeforeComma (HasSepBefore ',' v.Value.data) ∧
      PanicsUnless v.AfterComma (HasSepAfter ',' v.Value.data) ∧
      PanicsUnless v.BeforeColon (HasSepBefore ':' v.Value.data) ∧
      PanicsUnless v.AfterColon (HasSepAfter ':' v.Value.data) := by
  refine ⟨?_, ?_, ?_, ?_, ?_, before_panicsUnless ',' v.Value, after_panicsUnless ',' v.Value,
    before_panicsUnless ':' v.Value, after_panicsUnless ':' v.Value⟩
  · rw [major_eq]; exact majorOf_panicsUnless _
  · rw [minor_eq]; exact minorOf_panicsUnless _
  · rw [patch_eq]; exact patchOf_panicsUnless _
  · rw [majorMinor_eq]; exact majorMinorOf_panicsUnless _
  · rw [majorMinorPatch_eq]; exact majorMinorPatchOf_panicsUnless _

/-- C15 at values that lack the component asked for.  Every one of the nine derivations
indexes the list of matches without looking at its length, so where the component is absent it
panics: `Minor` on `5`, and likewise the eight others, crash where C15 asks for a failure that
the caller can branch on.  The same unchecked index makes `BeforeComma` panic on a value that
has a comma after a newline, and `AfterComma` on one that has a comma before a newline, where
C15 asks for a string. -/
theorem derivations_panic_without_component :
    ((NewVersion "5").Minor = .panic ∧ (NewVersion "v5").Major = .panic ∧
      (NewVersion "5.1").Patch = .panic ∧ (NewVersion "5").MajorMinor = .panic ∧
      (NewVersion "5.1").MajorMinorPatch = .panic ∧
      (NewVersion "5.1").BeforeComma = .panic ∧ (NewVersion "5.1").AfterComma = .panic ∧
      (NewVersion "5.1").BeforeColon = .panic ∧ (NewVersion "5.1").AfterColon = .panic) ∧
      (',' ∈ ("a\n,b" : String).data ∧ (NewVersion "a\n,b").BeforeComma = .panic) ∧
      (',' ∈ ("a,\nb" : String).data ∧ (NewVersion "a,\nb").AfterComma = .panic) := by
  decide

/-! ## The group invariant (C19) -/

theorem newGroup_inv : NewGroup.Inv := Or.inl rfl

theorem addVersion_inv (g : Group) (s : String) (w : Int) (p : Bool) (h : g.Inv) :
    (g.AddVersion s w p).Inv := by
  unfold Group.AddVersion
  dsimp only
  split
  · exact Or.inr (by simp)
  · rename_i hne
    rcases h with h | h
    · exact absurd h hne
    · exact Or.inr (List.mem_append_left _ h)

theorem addUrl_inv (g : Group) (u : String) (h : g.Inv) : (g.AddUrl u).Inv := h

theorem group_extractAll_inv (g : Group) (content : String) (h : g.Inv) :
    (g.ExtractAll content).Inv := by
  unfold Group.ExtractAll
  generalize CaskVersion.ExtractAll content = vs
  induction vs generalizing g with
  | nil => exact h
  | cons v vs ih => exact ih _ (addVersion_inv g v 0 false h)

theorem groupVersions_inv (gs r : Groups) (h : gs.GroupVersions = some r) :
    ∀ g ∈ r.Groups, g.Inv := by
  obtain ⟨st, -, hr⟩ := groupVersions_eq gs r h
  intro g hg
  rw [hr] at hg
  obtain ⟨k, -, rfl⟩ := List.mem_map.1 hg
  exact Or.inr (by simp)

theorem cleanByWeights_inv (gs r : Groups) (h : gs.CleanByWeights = some r)
    (hinv : ∀ g ∈ gs.Groups, g.Inv) : ∀ g ∈ r.Groups, g.Inv := by
  have hne : gs.Groups ≠ [] := by
    intro hnil
    rw [(cleanByWeights_none_iff gs).2 hnil] at h
    simp at h
  rw [cleanByWeights_eq gs hne] at h
  intro g hg
  rw [← Option.some.inj h] at hg
  exact hinv g (List.mem_of_mem_filter hg)

/-- C19 at a group built by `AddVersion("1.0", 0, true)`.  The invariant holds before
`Weighten`; `Weighten` adds the version again without its prerelease flag and keeps the flag in
the preferred version, so afterwards the preferred version `{1.0, 1, true}` is set and is not
an element of the versions `[{1.0, 1, false}]`. -/
theorem weighten_breaks_invariant :
    (∀ g ∈ prereleaseGroups.Groups, g.Inv) ∧
      prereleaseGroups.Weighten = { Groups := [
        { Versions := [{ Value := "1.0", Weight := 1, Prerelease := false }],
          PreferredVersion := { Value := "1.0", Weight := 1, Prerelease := true },
          Urls := [] }] } ∧
      ¬ (∀ g ∈ prereleaseGroups.Weighten.Groups, g.Inv) := by
  decide

/-! ## CleanByWeights keeps a heaviest group (C20) -/

theorem exists_heaviest (l : List Group) (hne : l ≠ []) :
    ∃ g ∈ l, ∀ g' ∈ l, g'.PreferredVersion.Weight ≤ g.PreferredVersion.Weight := by
  induction l with
  | nil => exact absurd rfl hne
  | cons a l ih =>
    by_cases hl : l = []
    · subst hl
      exact ⟨a, List.mem_cons_self _ _, by simp⟩
    · obtain ⟨g, hg, hmax⟩ := ih hl
      by_cases h : g.PreferredVersion.Weight ≤ a.PreferredVersion.Weight
      · refine ⟨a, List.mem_cons_self _ _, ?_⟩
        intro g' hg'
        rcases List.mem_cons.1 hg' with rfl | h'
        · exact le_refl _
        · exact le_trans (hmax g' h') h
      · refine ⟨g, List.mem_cons_of_mem _ hg, ?_⟩
        intro g' hg'
        rcases List.mem_cons.1 hg' with rfl | h'
        · exact le_of_lt (not_le.1 h)
        · exact hmax g' h'

theorem tdiv_le_of_le_mul (s m : Int) (n : Nat) (hn : 0 < n) (h : s ≤ n * m) :
    Int.tdiv s n ≤ m := by
  have hn' : (0 : Int) < n := by exact_mod_cast hn
  rcases le_or_lt 0 s with hs | hs
  · rw [Int.tdiv_eq_ediv hs (le_of_lt hn')]
    have : s / (n : Int) ≤ (n * m) / (n : Int) := Int.ediv_le_ediv hn' h
    rwa [Int.mul_ediv_cancel_left _ (ne_of_gt hn')] at this
  · have hneg : s = -(-s) := by ring
    rw [hneg, Int.neg_tdiv, Int.tdiv_eq_ediv (by omega) (le_of_lt hn')]
    have h2 : (n : Int) * (-m) ≤ -s := by linarith
    have : ((n : Int) * (-m)) / (n : Int) ≤ (-s) / (n : Int) := Int.ediv_le_ediv hn' h2
    rw [Int.mul_ediv_cancel_left _ (ne_of_gt hn')] at this
    linarith

theorem sum_le_length_mul (l : List Int) (m : Int) (h : ∀ x ∈ l, x ≤ m) :
    l.sum ≤ l.length * m := by
  induction l with
  | nil => simp
  | cons a l ih =>
    have h1 := h a (List.mem_cons_self _ _)
    have h2 := ih (fun x hx => h x (List.mem_cons_of_mem _ hx))
    simp only [List.sum_cons, List.length_cons]
    push_cast
    linarith

/-- C20, amended.  For every non-empty `Groups` whose exact sum of preferred weights fits in
a 64-bit integer, `CleanByWeights` succeeds and leaves at least one group: every group whose
preferred weight is the maximum is kept, its weight being at least the truncating quotient of
the sum by the number of groups. -/
theorem cleanByWeights_keeps_heaviest (gs : Groups) (hne : gs.Groups ≠ [])
    (hlo : -(2 : Int) ^ 63 ≤ (gs.Groups.map (fun g => g.PreferredVersion.Weight)).sum)
    (hhi : (gs.Groups.map (fun g => g.PreferredVersion.Weight)).sum < 2 ^ 63) :
    ∃ r, gs.CleanByWeights = some r ∧ r.Groups ≠ [] ∧
      ∀ g ∈ gs.Groups,
        (∀ g' ∈ gs.Groups, g'.PreferredVersion.Weight ≤ g.PreferredVersion.Weight) →
        g ∈ r.Groups ∧ g.PreferredVersion.Weight ≥
          Int.tdiv ((gs.Groups.map (fun g => g.PreferredVersion.Weight)).sum) gs.Groups.length := by
  have hlen : 0 < gs.Groups.length := List.length_pos.2 hne
  have key : ∀ g ∈ gs.Groups,
      (∀ g' ∈ gs.Groups, g'.PreferredVersion.Weight ≤ g.PreferredVersion.Weight) →
      g ∈ gs.Groups.filter (fun g =>
        decide (averageWeight gs.Groups ≤ g.PreferredVersion.Weight ∨ g.Urls ≠ [])) ∧
      g.PreferredVersion.Weight ≥
        Int.tdiv ((gs.Groups.map (fun g => g.PreferredVersion.Weight)).sum) gs.Groups.length := by
    intro g hg hmax
    have hle : (gs.Groups.map (fun g => g.PreferredVersion.Weight)).sum ≤
        gs.Groups.length * g.PreferredVersion.Weight := by
      have := sum_le_length_mul (gs.Groups.map (fun g => g.PreferredVersion.Weight))
        g.PreferredVersion.Weight (by
          intro x hx
          obtain ⟨g', hg', rfl⟩ := List.mem_map.1 hx
          exact hmax g' hg')
      simpa using this
    have havg := tdiv_le_of_le_mul _ _ _ hlen hle
    refine ⟨?_, havg⟩
    rw [List.mem_filter]
    refine ⟨hg, decide_eq_true (Or.inl ?_)⟩
    unfold averageWeight
    rw [wrapInt64_eq_self _ hlo hhi]
    exact havg
  obtain ⟨g, hg, hmax⟩ := exists_heaviest gs.Groups hne
  refine ⟨_, cleanByWeights_eq gs hne, ?_, key⟩
  exact List.ne_nil_of_mem (key g hg hmax).1

/-- The amended C20 on `mixedWeights`. -/
theorem cleanByWeights_keeps_heaviest_witness :
    ∃ r, mixedWeights.CleanByWeights = some r ∧ r.Groups ≠ [] ∧
      ∀ g ∈ mixedWeights.Groups,
        (∀ g' ∈ mixedWeights.Groups, g'.PreferredVersion.Weight ≤ g.PreferredVersion.Weight) →
        g ∈ r.Groups ∧ g.PreferredVersion.Weight ≥
          Int.tdiv ((mixedWeights.Groups.map (fun g => g.PreferredVersion.Weight)).sum)
            mixedWeights.Groups.length :=
  cleanByWeights_keeps_heaviest mixedWeights (by decide) (by decide) (by decide)

/-- C20, as stated, fails on `minWeights`: the two weights are the least 64-bit integer, their
sum wraps to `0`, the average is `0`, and `CleanByWeights` keeps no group. -/
theorem cleanByWeights_empties_counterexample :
    minWeights.Groups ≠ [] ∧ sumWeights minWeights.Groups = 0 ∧
      minWeights.CleanByWeights = some { Groups := [] } := by
  decide

/-! ## Derivations on several digits and several separators (C17, C16) -/

/-- C17 at the value `10.15.7`.  The expressions take one digit for each part: `Major` returns
`1`, not `10`, and `Minor`, `Patch`, `MajorMinor` and `MajorMinorPatch` panic, the second
character not being a dot. -/
theorem derivations_take_one_digit :
    (NewVersion "10.15.7").Major = .ok "1" ∧
      (NewVersion "10.15.7").Major ≠ .ok "10" ∧
      (NewVersion "10.15.7").Minor = .panic ∧
      (NewVersion "10.15.7").Patch = .panic ∧
      (NewVersion "10.15.7").MajorMinor = .panic ∧
      (NewVersion "10.15.7").MajorMinorPatch = .panic := by
  decide

/-- C16 at the values `1,2,3` and `1:2:3`.  `BeforeComma` returns what stands before the last
comma, `1,2`, not what stands before the first, `1`, while `AfterComma` returns what stands
after the first comma, `2,3`; the two do not join back to the value.  The colon pair does the
same. -/
theorem beforeComma_cuts_at_last_comma :
    ((NewVersion "1,2,3").BeforeComma = .ok "1,2" ∧
      (NewVersion "1,2,3").BeforeComma ≠ .ok "1" ∧
      (NewVersion "1,2,3").AfterComma = .ok "2,3" ∧
      ("1,2" : String) ++ "," ++ "2,3" ≠ "1,2,3") ∧
      ((NewVersion "1:2:3").BeforeColon = .ok "1:2" ∧
        (NewVersion "1:2:3").BeforeColon ≠ .ok "1" ∧
        (NewVersion "1:2:3").AfterColon = .ok "2:3" ∧
        ("1:2" : String) ++ ":" ++ "2:3" ≠ "1:2:3") := by
  decide

/-! ## Interpolation of the bare marker (C12) -/

/-- C12 at the value `$1` and the template `a#{version}b`, and at the value `sion` and the
template `#{ver#{version}}#{version}`.  In the first the value is expanded as a template of the
replacement and `$1`, a group that took no part in the match, becomes empty: the result is `ab`,
not `a$1b`.  In the second the first pass builds a new bare marker, which the pass for the
second match replaces too: the result is `sionsion`, not `#{version}sion`. -/
theorem interpolate_bare_marker_expands_dollar :
    ((NewVersion "$1").InterpolateIntoString "a#\x7bversion\x7db" = .ok "ab" ∧
      (NewVersion "$1").InterpolateIntoString "a#\x7bversion\x7db" ≠ .ok ("a" ++ "$1" ++ "b")) ∧
      ((NewVersion "sion").InterpolateIntoString
          "#\x7bver#\x7bversion\x7d\x7d#\x7bversion\x7d" = .ok "sionsion" ∧
        (NewVersion "sion").InterpolateIntoString
          "#\x7bver#\x7bversion\x7d\x7d#\x7bversion\x7d" ≠
            .ok ("#\x7bver" ++ "sion" ++ "\x7d" ++ "sion" ++ "")) := by
  decide

end CaskVersion
